import Mathlib

/-!
Shallow embedding of the staged-sync pipeline core of the `reth` repository:
the parked transaction pool (`crates/transaction-pool/src/pool/parked.rs`),
the Senders stage (`crates/stages/src/stages/senders.rs`), the Headers stage
(`crates/stages/src/stages/headers.rs`) and the `reth db list` subcommand
(`bin/reth/src/db/mod.rs`).  Machine integers are modelled as `Nat`; the only
place where wrap-around is observable (the pool submission counter, a `u64`
with `wrapping_add`) carries an explicit `% 2^64`.
-/

namespace RethSpec

/-! ## Parked transaction pool (`pool/parked.rs`) -/

/-- A transaction as seen by the parked pool: `txId` models the totally
ordered `TransactionId` returned by `transaction.id()`, and `priority` models
the value compared by the user-chosen `ParkedOrd` instance (for example the
`max_fee_per_gas` used by `BasefeeOrd`). -/
structure PoolTx where
  txId : Nat
  priority : Nat
  deriving DecidableEq, Repr

/-- `ParkedPoolTransaction`: the record stored in both pool indexes.  It
carries the monotonically assigned submission id next to the transaction. -/
structure ParkedPoolTransaction where
  submission_id : Nat
  tx : PoolTx
  deriving DecidableEq, Repr

/-- The `Ord` implementation for `ParkedPoolTransaction`: compare by the
transaction (the priority order) first and, when equal, by
`transaction.id()` — the transaction id, not the submission id. -/
def ParkedPoolTransaction.cmp (a b : ParkedPoolTransaction) : Ordering :=
  (compare a.tx.priority b.tx.priority).then (compare a.tx.txId b.tx.txId)

/-- The parked pool: submission counter, id-keyed map (`FnvHashMap`,
modelled as an association list) and the priority-ordered set (`BTreeSet`,
modelled as a list sorted by `ParkedPoolTransaction.cmp`). -/
structure ParkedPool where
  submission_id : Nat
  by_id : List (Nat × ParkedPoolTransaction)
  best : List ParkedPoolTransaction
  deriving DecidableEq, Repr

/-- `ParkedPool::default()`. -/
def ParkedPool.empty : ParkedPool := ⟨0, [], []⟩

/-- `FnvHashMap::insert`: bind `k` to `v`, dropping any previous binding. -/
def mapInsert (k : Nat) (v : ParkedPoolTransaction)
    (l : List (Nat × ParkedPoolTransaction)) : List (Nat × ParkedPoolTransaction) :=
  (k, v) :: l.eraseP (fun e => e.1 == k)

/-- `BTreeSet::insert` on the cmp-sorted element list: keep the existing
element when an `Ordering::Equal` element is already present, otherwise
insert at the ordered position. -/
def bestInsert (x : ParkedPoolTransaction) :
    List ParkedPoolTransaction → List ParkedPoolTransaction
  | [] => [x]
  | y :: t =>
    match x.cmp y with
    | .lt => x :: y :: t
    | .eq => y :: t
    | .gt => y :: bestInsert x t

/-- `ParkedPool::add_transaction`: assign the next submission id (the `u64`
counter advances with `wrapping_add(1)`) and insert the record into both
indexes.  The source asserts that the id is not yet present; theorems carry
that freshness as a hypothesis. -/
def ParkedPool.add_transaction (p : ParkedPool) (tx : PoolTx) : ParkedPool :=
  let t : ParkedPoolTransaction := ⟨p.submission_id, tx⟩
  { submission_id := (p.submission_id + 1) % 2 ^ 64
    by_id := mapInsert tx.txId t p.by_id
    best := bestInsert t p.best }

/-- `ParkedPool::remove_transaction`: drop the record from `by_id` (early
return of `None` when the id is absent) and remove the cmp-equal element
from `best`. -/
def ParkedPool.remove_transaction (p : ParkedPool) (id : Nat) :
    Option ParkedPoolTransaction × ParkedPool :=
  match p.by_id.find? (fun e => e.1 == id) with
  | none => (none, p)
  | some e =>
    (some e.2,
      { p with
        by_id := p.by_id.eraseP (fun e' => e'.1 == id)
        best := p.best.eraseP (fun x => x.cmp e.2 == Ordering.eq) })

/-- An operation on the parked pool. -/
inductive PoolOp where
  | add (tx : PoolTx)
  | remove (id : Nat)
  deriving DecidableEq, Repr

/-- Apply a sequence of pool operations. -/
def applyOps (p : ParkedPool) : List PoolOp → ParkedPool
  | [] => p
  | .add tx :: rest => applyOps (p.add_transaction tx) rest
  | .remove id :: rest => applyOps (p.remove_transaction id).2 rest

/-- A sequence of operations contains no duplicate insertion: every `add`
inserts an id that is absent at the moment it is applied (the source
`assert!`s exactly this). -/
def validOps (p : ParkedPool) : List PoolOp → Bool
  | [] => true
  | .add tx :: rest =>
    (p.by_id.find? (fun e => e.1 == tx.txId)).isNone &&
      validOps (p.add_transaction tx) rest
  | .remove id :: rest => validOps (p.remove_transaction id).2 rest

/-! ## Stage contract (`crates/stages`) -/

/-- `ExecInput`: the previous stage's progress (`previous_stage`, the block
number component of `Option<(StageId, BlockNumber)>`) and this stage's last
committed progress. -/
structure ExecInput where
  previous_stage : Option Nat
  stage_progress : Option Nat
  deriving DecidableEq, Repr

/-- `ExecInput::previous_stage_progress`: `unwrap_or_default` of the
previous stage's progress. -/
def ExecInput.previous_stage_progress (i : ExecInput) : Nat :=
  i.previous_stage.getD 0

/-- `ExecOutput` of a stage execution. -/
structure ExecOutput where
  stage_progress : Nat
  reached_tip : Bool
  done : Bool
  deriving DecidableEq, Repr

/-- `DatabaseIntegrityError` variants reachable in the embedded code. -/
inductive DatabaseIntegrityError where
  | CanonicalHeader (number : Nat)
  | Header (number : Nat) (hash : Nat)
  | TotalDifficulty (number : Nat)
  | BlockBody (number : Nat)
  deriving DecidableEq, Repr

/-- Modelled from the spec: `DownloadError` of the header downloader
(the downloader crate itself is not part of the sources).  §4.5 and §7 of
the spec distinguish timeouts, header-validation failures attributable to a
header hash, and other transient request failures. -/
inductive DownloadError where
  | Timeout
  | HeaderValidation (hash : Nat) (error : Nat)
  | RequestFail (code : Nat)
  deriving DecidableEq, Repr

/-- `SendersStageError`: sender recovery failed for a transaction. -/
inductive SendersStageError where
  | SenderRecovery (tx : Nat)
  deriving DecidableEq, Repr

/-- `StageError` variants reachable in the embedded code.  `DbWrite` stands
for a key-value write error surfaced from the store (for example an
out-of-order `append`). -/
inductive StageError where
  | Recoverable (e : DownloadError)
  | Validation (block : Nat) (error : Nat)
  | Download (hash : Nat)
  | StageProgress (n : Nat)
  | DatabaseIntegrity (e : DatabaseIntegrityError)
  | DbWrite
  | Fatal (e : SendersStageError)
  deriving DecidableEq, Repr

/-- Decidable equality of `Except` results, for evaluating stage outcomes
on concrete inputs. -/
instance exceptDecEq {ε α : Type} [DecidableEq ε] [DecidableEq α] :
    DecidableEq (Except ε α) := fun x y =>
  match x, y with
  | .ok a, .ok b =>
    if h : a = b then isTrue (by rw [h])
    else isFalse (fun hh => by cases hh; exact h rfl)
  | .ok _, .error _ => isFalse (fun hh => by cases hh)
  | .error _, .ok _ => isFalse (fun hh => by cases hh)
  | .error e, .error e' =>
    if h : e = e' then isTrue (by rw [h])
    else isFalse (fun hh => by cases hh; exact h rfl)

/-- Fuel-driven worker for `chunks`; the fuel is an upper bound on the list
length, so the fuel-exhausted arm is unreachable. -/
def chunksGo (c : Nat) : Nat → List α → List (List α)
  | _, [] => []
  | 0, _ :: _ => []
  | fuel + 1, a :: l => (a :: l.take (c - 1)) :: chunksGo c fuel (l.drop (c - 1))

/-- Split a list into successive chunks of `c` elements (the last chunk may
be shorter), as `StreamExt::chunks` and `Itertools::chunks` do. -/
def chunks (c : Nat) (l : List α) : List (List α) :=
  chunksGo c l.length l

/-! ## Senders stage (`crates/stages/src/stages/senders.rs`) -/

/-- Modelled from the spec: `StoredBlockBody` (`reth_db::models`, not among
the sources) — the `BlockBodies` value `{ first tx index, tx count }`. -/
structure StoredBlockBody where
  start_tx_id : Nat
  tx_count : Nat
  deriving DecidableEq, Repr

/-- Modelled from the spec: `StoredBlockBody::last_tx_index`, the inclusive
end of the block's transaction range (§4.6 step 3 together with the
gap-free indexing invariant §3.3): `start_tx_id + tx_count - 1`. -/
def StoredBlockBody.last_tx_index (b : StoredBlockBody) : Nat :=
  b.start_tx_id + b.tx_count - 1

/-- The database state visible to the Senders stage: `BlockBodies` resolved
by block number (`Transaction::get_block_body_by_num`), the `Transactions`
table as a key-sorted association list, and the `TxSenders` table. -/
structure SendersDB where
  bodies : Nat → Option StoredBlockBody
  transactions : List (Nat × Nat)
  senders : List (Nat × Nat)

/-- `cursor.walk(start)` followed by `take_while(key ≤ end)` on a
key-sorted table: all entries with key in `[s, e]`, in table order. -/
def walkRange (s e : Nat) (l : List (Nat × Nat)) : List (Nat × Nat) :=
  l.filter (fun kv => s ≤ kv.1 && kv.1 ≤ e)

/-- Recover the signer of every transaction of one chunk
(`chunk.into_par_iter().map(...).collect::<Result<Vec<_>, _>>()`); a failed
recovery is the fatal `SenderRecovery { tx }`. -/
def recoverAll (recover : Nat → Option Nat) :
    List (Nat × Nat) → Except StageError (List (Nat × Nat))
  | [] => .ok []
  | (i, t) :: rest =>
    match recover t with
    | none => .error (.Fatal (.SenderRecovery i))
    | some s =>
      match recoverAll recover rest with
      | .error e => .error e
      | .ok tl => .ok ((i, s) :: tl)

/-- `senders_cursor.append(id, sender)` iterated over a recovered chunk: an
appending cursor errors out unless the key is strictly greater than the
last key of the table. -/
def appendAll : List (Nat × Nat) → List (Nat × Nat) →
    Except StageError (List (Nat × Nat))
  | acc, [] => .ok acc
  | acc, (k, v) :: rest =>
    match acc.getLast? with
    | none => appendAll (acc ++ [(k, v)]) rest
    | some last => if last.1 < k then appendAll (acc ++ [(k, v)]) rest
                   else .error .DbWrite

/-- The per-chunk loop of `SendersStage::execute`: recover signers for each
chunk, then append them to `TxSenders`. -/
def sendersChunksLoop (recover : Nat → Option Nat) :
    List (List (Nat × Nat)) → List (Nat × Nat) →
      Except StageError (List (Nat × Nat))
  | [], acc => .ok acc
  | c :: rest, acc =>
    match recoverAll recover c with
    | .error e => .error e
    | .ok recd =>
      match appendAll acc recd with
      | .error e => .error e
      | .ok acc' => sendersChunksLoop recover rest acc'

/-- `SendersStage::execute`.  Returns the database state after the call
(pending writes of a failed call are rolled back when the transaction is
dropped, so errors leave the database unchanged) together with the stage
result. -/
def SendersStage.execute (batch_size commit_threshold : Nat)
    (recover : Nat → Option Nat) (db : SendersDB) (input : ExecInput) :
    SendersDB × Except StageError ExecOutput :=
  let stage_progress := input.stage_progress.getD 0
  let previous := input.previous_stage_progress
  let max_block_num := min previous (stage_progress + commit_threshold)
  if max_block_num ≤ stage_progress then
    (db, .ok ⟨stage_progress, true, true⟩)
  else
    match db.bodies (stage_progress + 1) with
    | none => (db, .error (.DatabaseIntegrity (.BlockBody (stage_progress + 1))))
    | some body_first =>
      match db.bodies max_block_num with
      | none => (db, .error (.DatabaseIntegrity (.BlockBody max_block_num)))
      | some body_last =>
        let start_tx_index := body_first.start_tx_id
        let end_tx_index := body_last.last_tx_index
        if end_tx_index < start_tx_index then
          (db, .ok ⟨max_block_num, true, true⟩)
        else
          let entries := walkRange start_tx_index end_tx_index db.transactions
          match sendersChunksLoop recover (chunks batch_size entries) db.senders with
          | .error e => (db, .error e)
          | .ok senders' =>
            let done : Bool := decide (previous ≤ max_block_num)
            ({ db with senders := senders' }, .ok ⟨max_block_num, done, done⟩)

/-- Gap-free cumulative first-transaction index of a seeded chain with
per-block transaction counts `cnt` (§3 invariant 3). -/
def firstTxOf (cnt : Nat → Nat) : Nat → Nat
  | 0 => 0
  | k + 1 => firstTxOf cnt k + cnt k

/-- `BlockBodies` seeded gap-free up to block `n`. -/
def seededBodies (cnt : Nat → Nat) (n : Nat) : Nat → Option StoredBlockBody :=
  fun b => if b ≤ n then some ⟨firstTxOf cnt b, cnt b⟩ else none

/-- `Transactions` seeded gap-free up to block `n`: every index below
`firstTxOf cnt (n+1)` holds the record `tr i`. -/
def seededTxs (cnt tr : Nat → Nat) (n : Nat) : List (Nat × Nat) :=
  (List.range (firstTxOf cnt (n + 1))).map (fun i => (i, tr i))

/-- `TxSenders` covering stage progress `sp`: exactly the signers for all
transaction indices of blocks `0..=sp`. -/
def seededSenders (cnt sig : Nat → Nat) (sp : Nat) : List (Nat × Nat) :=
  (List.range (firstTxOf cnt (sp + 1))).map (fun i => (i, sig i))

/-! ## Headers stage (`crates/stages/src/stages/headers.rs`) -/

/-- A block header: parent hash, number and difficulty (hashes are opaque
identifiers, modelled as `Nat`; `0` is the zero hash). -/
structure Header where
  parent_hash : Nat
  number : Nat
  difficulty : Nat
  deriving DecidableEq, Repr

/-- `SealedHeader`: a header together with its hash. -/
structure SealedHeader where
  header : Header
  hash : Nat
  deriving DecidableEq, Repr

/-- `SealedHeader::num_hash`: the `(number, hash)` composite key. -/
def SealedHeader.num_hash (h : SealedHeader) : Nat × Nat :=
  (h.header.number, h.hash)

/-- `ForkchoiceState` published by the consensus client. -/
structure ForkchoiceState where
  head_block_hash : Nat
  safe_block_hash : Nat
  finalized_block_hash : Nat
  deriving DecidableEq, Repr

/-- Point lookup in a table held as an association list
(`cursor.seek_exact` / `tx.get`). -/
def alookup {κ ν : Type} [DecidableEq κ] (k : κ) (l : List (κ × ν)) : Option ν :=
  (l.find? (fun e => e.1 = k)).map (·.2)

/-- Sorted-map insert (`cursor.insert` / `tx.put` on a B-tree table): place
the entry at its key position, replacing an equal key. -/
def ainsert {κ ν : Type} [DecidableEq κ] (lt : κ → κ → Bool) (k : κ) (v : ν) :
    List (κ × ν) → List (κ × ν)
  | [] => [(k, v)]
  | (k', v') :: t =>
    if lt k k' then (k, v) :: (k', v') :: t
    else if k = k' then (k, v) :: t
    else (k', v') :: ainsert lt k v t

/-- Key order of block-number keys. -/
def natLt (a b : Nat) : Bool := a < b

/-- Key order of `(number, hash)` composite keys: by number, then by hash. -/
def bnhLt (a b : Nat × Nat) : Bool :=
  a.1 < b.1 || (a.1 = b.1 && a.2 < b.2)

/-- `cursor.seek_exact(p)` followed by `cursor.next()` on a sorted table:
the first entry whose key is greater than `p`. -/
def nextAfter (p : Nat) (l : List (Nat × Nat)) : Option (Nat × Nat) :=
  l.find? (fun e => p < e.1)

/-- `cursor.walk(start)` on a sorted `(number, hash)`-keyed table: all
entries with key at least `start`, in table order. -/
def walkFrom (start : Nat × Nat) (l : List ((Nat × Nat) × Header)) :
    List ((Nat × Nat) × Header) :=
  l.filter (fun e => !(bnhLt e.1 start))

/-- The database state visible to the Headers stage: the four header
tables, each a key-sorted association list. -/
structure HeadersDB where
  canonical : List (Nat × Nat)
  headerNumbers : List (Nat × Nat)
  headers : List ((Nat × Nat) × Header)
  headerTD : List ((Nat × Nat) × Nat)
  deriving DecidableEq, Repr

/-- `HeaderStage::update_head`: look up the canonical hash at `height`
(`get_block_numhash`, modelled from the spec: canonical header at the
progress, missing means DatabaseIntegrity) and its total difficulty, then
fire-and-forget the status update. -/
def updateHead (db : HeadersDB) (height : Nat) : Except StageError Unit :=
  match alookup height db.canonical with
  | none => .error (.DatabaseIntegrity (.CanonicalHeader height))
  | some h =>
    match alookup (height, h) db.headerTD with
    | none => .error (.DatabaseIntegrity (.TotalDifficulty height))
    | some _ => .ok ()

/-- `HeaderStage::next_fork_choice_state`: block on the consensus channel
until it publishes a non-zero head hash different from the current head;
the channel is modelled as the list of states it will publish, and `none`
models blocking forever. -/
def nextForkChoiceState (head : Nat) (fcs : List ForkchoiceState) :
    Option ForkchoiceState :=
  fcs.find? (fun s => !(s.head_block_hash == 0) && !(s.head_block_hash == head))

/-- `HeaderStage::get_head_and_tip`.  The outer `Option` is `none` exactly
when the code would block forever awaiting a usable forkchoice update. -/
def getHeadAndTip (db : HeadersDB) (fcs : List ForkchoiceState) (p : Nat) :
    Option (Except StageError (SealedHeader × Nat)) :=
  match alookup p db.canonical with
  | none => some (.error (.DatabaseIntegrity (.CanonicalHeader p)))
  | some head_hash =>
    match alookup (p, head_hash) db.headers with
    | none => some (.error (.DatabaseIntegrity (.Header p head_hash)))
    | some head =>
      match nextAfter p db.canonical with
      | some nxt =>
        match alookup nxt db.headers with
        | none => some (.error (.DatabaseIntegrity (.Header nxt.1 nxt.2)))
        | some nxtHeader =>
          if p + 1 ≠ nxtHeader.number then
            some (.ok (⟨head, head_hash⟩, nxtHeader.parent_hash))
          else
            some (.error (.StageProgress p))
      | none =>
        (nextForkChoiceState head_hash fcs).map
          (fun st => .ok (⟨head, head_hash⟩, st.head_block_hash))

/-- Modelled from the spec: `ensure_parent` of the downloader module (not
among the sources) — the child's parent hash must be the parent's hash and
the child's number the parent's number plus one (§4.5 step 3b). -/
def ensureParent (child parent : SealedHeader) : Bool :=
  child.header.parent_hash == parent.hash &&
    child.header.number == parent.header.number + 1

/-- `HeaderStage::validate_header_response`: check `ensure_parent` for
every adjacent pair of the descending chunk. -/
def validateHeaderResponse : List SealedHeader → Except StageError Unit
  | [] => .ok ()
  | [_] => .ok ()
  | a :: b :: rest =>
    if ensureParent a b then validateHeaderResponse (b :: rest)
    else .error (.Download a.hash)

/-- `headers.into_iter().collect::<Result<Vec<_>, _>>()`: the chunk's
headers, or its first download error. -/
def collectResults :
    List (Except DownloadError SealedHeader) →
      Except DownloadError (List SealedHeader)
  | [] => .ok []
  | .error e :: _ => .error e
  | .ok a :: rest =>
    match collectResults rest with
    | .error e => .error e
    | .ok tl => .ok (a :: tl)

/-- One iteration of the `write_headers` loop: skip genesis, then insert
into `HeaderNumbers`, `Headers` and `CanonicalHeaders`, tracking the latest
number written. -/
def writeHeadersStep (acc : HeadersDB × Option Nat) (sh : SealedHeader) :
    HeadersDB × Option Nat :=
  if sh.header.number = 0 then acc
  else
    ({ acc.1 with
        headerNumbers := ainsert natLt sh.hash sh.header.number acc.1.headerNumbers
        headers := ainsert bnhLt (sh.header.number, sh.hash) sh.header acc.1.headers
        canonical := ainsert natLt sh.header.number sh.hash acc.1.canonical },
     some sh.header.number)

/-- `HeaderStage::write_headers`: iterate the descending chunk in reverse
(ascending) order and write each header. -/
def writeHeaders (db : HeadersDB) (headers : List SealedHeader) :
    HeadersDB × Option Nat :=
  headers.reverse.foldl writeHeadersStep (db, none)

/-- `cursor_td.append(key, td)`: append-only cursor write that fails unless
the key is strictly greater than the table's last key. -/
def appendTD (tdTable : List ((Nat × Nat) × Nat)) (key : Nat × Nat)
    (td : Nat) : Option (List ((Nat × Nat) × Nat)) :=
  match tdTable.getLast? with
  | none => some (tdTable ++ [(key, td)])
  | some last => if bnhLt last.1 key then some (tdTable ++ [(key, td)]) else none

/-- The walk of `write_td`: accumulate `td += difficulty` over the header
entries and append each cumulative value.  Total difficulty is a `U256` in
the source; sums of difficulties stay far below `2^256`, so the addition is
modelled on `Nat` without wrap-around. -/
def tdLoop (td : Nat) (tdTable : List ((Nat × Nat) × Nat)) :
    List ((Nat × Nat) × Header) → Except StageError (List ((Nat × Nat) × Nat))
  | [] => .ok tdTable
  | (key, hdr) :: rest =>
    match appendTD tdTable key (td + hdr.difficulty) with
    | none => .error .DbWrite
    | some t' => tdLoop (td + hdr.difficulty) t' rest

/-- `HeaderStage::write_td`: read the head's total difficulty, position at
`(head.number + 1, hash)` via `get_block_numhash`, then walk `Headers`
accumulating and appending to `HeaderTD`. -/
def writeTd (db : HeadersDB) (head : SealedHeader) : Except StageError HeadersDB :=
  match alookup head.num_hash db.headerTD with
  | none => .error (.DatabaseIntegrity (.TotalDifficulty head.header.number))
  | some td0 =>
    match alookup (head.header.number + 1) db.canonical with
    | none => .error (.DatabaseIntegrity (.CanonicalHeader (head.header.number + 1)))
    | some hash1 =>
      match tdLoop td0 db.headerTD
          (walkFrom (head.header.number + 1, hash1) db.headers) with
      | .error e => .error e
      | .ok newTD => .ok { db with headerTD := newTD }

/-- The chunked download loop of `HeaderStage::execute`: collect each
chunk, validate it, write it and commit; downloader errors map to
`Recoverable` (timeouts and other request failures) or `Validation`
(header-validation failures, attributed to the stage progress). -/
def headersLoop (db : HeadersDB) (sp cur : Nat) :
    List (List (Except DownloadError SealedHeader)) →
      HeadersDB × Except StageError Nat
  | [] => (db, .ok cur)
  | chunk :: rest =>
    match collectResults chunk with
    | .ok res =>
      match validateHeaderResponse res with
      | .error e => (db, .error e)
      | .ok _ =>
        let wr := writeHeaders db res
        headersLoop wr.1 sp (max cur (wr.2.getD 0)) rest
    | .error .Timeout => (db, .error (.Recoverable .Timeout))
    | .error (.HeaderValidation _ err) => (db, .error (.Validation sp err))
    | .error e => (db, .error (.Recoverable e))

/-- `HeaderStage::execute`: update the status broadcast, determine head and
tip, stream the downloader's output in chunks of `commit_threshold`,
then write total difficulty and report progress.  Returns the database
next to the stage result; the outer `Option` is `none` exactly when the
stage would block forever on the forkchoice channel. -/
def HeaderStage.execute (commit_threshold : Nat) (db : HeadersDB)
    (fcs : List ForkchoiceState)
    (stream : List (Except DownloadError SealedHeader)) (input : ExecInput) :
    Option (HeadersDB × Except StageError ExecOutput) :=
  let stage_progress := input.stage_progress.getD 0
  match updateHead db stage_progress with
  | .error e => some (db, .error e)
  | .ok _ =>
    match getHeadAndTip db fcs stage_progress with
    | none => none
    | some (.error e) => some (db, .error e)
    | some (.ok (head, _tip)) =>
      match headersLoop db stage_progress stage_progress
          (chunks commit_threshold stream) with
      | (db', .error e) => some (db', .error e)
      | (db', .ok cur) =>
        match writeTd db' head with
        | .error e => some (db', .error e)
        | .ok db'' =>
          some (db'',
            .ok ⟨max cur (((db''.canonical.getLast?).map (·.1)).getD 0),
              true, true⟩)

/-- The `Headers` table entries of a list of sealed headers. -/
def hEntries (l : List SealedHeader) : List ((Nat × Nat) × Header) :=
  l.map (fun s => ((s.header.number, s.hash), s.header))

/-- The `CanonicalHeaders` table entries of a list of sealed headers. -/
def cEntries (l : List SealedHeader) : List (Nat × Nat) :=
  l.map (fun s => (s.header.number, s.hash))

/-- The cumulative total-difficulty values the `write_td` walk appends:
starting from `td`, each entry's value adds its header's difficulty. -/
def tdAccum (td : Nat) : List ((Nat × Nat) × Header) → List ((Nat × Nat) × Nat)
  | [] => []
  | (key, hdr) :: rest => (key, td + hdr.difficulty) :: tdAccum (td + hdr.difficulty) rest

/-- A seeded database for the spec's intermediate-commit scenario: blocks
`0..=1100`, one transaction per block (`Transactions(i) = i`), senders
already recovered for blocks `0..=1000`. -/
def sendersWitnessDB : SendersDB :=
  ⟨fun n => if n ≤ 1100 then some ⟨n, 1⟩ else none,
   (List.range 1101).map (fun i => (i, i)),
   (List.range 1001).map (fun i => (i, i + 7))⟩

/-- A seeded database with an empty block 1 inside the commit window:
block 0 has one transaction, block 1 has none, block 2 has three. -/
def sendersEmptyBlockDB : SendersDB :=
  ⟨fun n => if n = 0 then some ⟨0, 1⟩ else if n = 1 then some ⟨1, 0⟩
     else if n = 2 then some ⟨1, 3⟩ else none,
   [(0, 0), (1, 1), (2, 2), (3, 3)],
   [(0, 100)]⟩

/-! ## `reth db list` (`bin/reth/src/db/mod.rs`) -/

/-- Outcome of `DbTool::list`: either the table was walked and printed, or
the process panicked (`_ => panic!()`). -/
inductive ListOutcome where
  | listed (table : String)
  | panicked
  deriving DecidableEq, Repr

/-- `DbTool::list`: match on the table-name argument; only `"headers"` and
`"txs"` are wired up, every other name hits the `panic!()` arm. -/
def DbTool.list (table : String) : ListOutcome :=
  if table = "headers" then .listed "Headers"
  else if table = "txs" then .listed "Transactions"
  else .panicked

end RethSpec

namespace RethSpec

/-! ## Pool invariant machinery -/

/-- The internal well-formedness of a parked pool reached by valid
operations: keys are unique, each record is stored under its own
transaction id, `best` is strictly cmp-sorted, and `best` is a permutation
of the values of `by_id`. -/
structure PoolInv (p : ParkedPool) : Prop where
  nodup : p.by_id.Pairwise (fun a b => a.1 ≠ b.1)
  keyed : ∀ e ∈ p.by_id, e.2.tx.txId = e.1
  sorted : p.best.Pairwise (fun a b => a.cmp b = .lt)
  perm : (p.by_id.map (·.2)).Perm p.best

theorem cmp_eq_iff (a b : ParkedPoolTransaction) :
    a.cmp b = .eq ↔ a.tx.priority = b.tx.priority ∧ a.tx.txId = b.tx.txId := by
  unfold ParkedPoolTransaction.cmp
  rcases h : compare a.tx.priority b.tx.priority with hc | hc | hc <;>
    simp [Ordering.then] <;>
    simp [Nat.compare_eq_lt, Nat.compare_eq_eq, Nat.compare_eq_gt] at h <;>
    [skip; skip; skip] <;> first
    | (intro hne; omega)
    | (constructor
       · intro hx
         refine ⟨h, ?_⟩
         simpa [Nat.compare_eq_eq] using hx
       · rintro ⟨-, hx⟩
         simp [Nat.compare_eq_eq, hx])

theorem cmp_irrefl (a : ParkedPoolTransaction) : a.cmp a = .eq := by
  simp [cmp_eq_iff]

theorem cmp_lt_or_gt_of_ne {a b : ParkedPoolTransaction}
    (h : a.tx.txId ≠ b.tx.txId) : a.cmp b = .lt ∨ a.cmp b = .gt := by
  rcases hx : a.cmp b with hc | hc | hc
  · exact Or.inl rfl
  · exact absurd ((cmp_eq_iff a b).mp hx).2 h
  · exact Or.inr rfl

theorem cmp_gt_iff_lt (a b : ParkedPoolTransaction) :
    a.cmp b = .gt ↔ b.cmp a = .lt := by
  unfold ParkedPoolTransaction.cmp
  rcases Nat.lt_trichotomy a.tx.priority b.tx.priority with h | h | h
  · have h1 : compare a.tx.priority b.tx.priority = .lt := by
      simpa [Nat.compare_eq_lt]
    have h2 : compare b.tx.priority a.tx.priority = .gt := by
      simpa [Nat.compare_eq_gt]
    simp [h1, h2, Ordering.then]
  · have h1 : compare a.tx.priority b.tx.priority = .eq := by
      simpa [Nat.compare_eq_eq]
    have h2 : compare b.tx.priority a.tx.priority = .eq := by
      simpa [Nat.compare_eq_eq] using h.symm
    simp only [h1, h2, Ordering.then]
    rcases Nat.lt_trichotomy a.tx.txId b.tx.txId with h' | h' | h'
    · have g1 : compare a.tx.txId b.tx.txId = .lt := by simpa [Nat.compare_eq_lt]
      have g2 : compare b.tx.txId a.tx.txId = .gt := by simpa [Nat.compare_eq_gt]
      simp [g1, g2]
    · have g1 : compare a.tx.txId b.tx.txId = .eq := by simpa [Nat.compare_eq_eq]
      have g2 : compare b.tx.txId a.tx.txId = .eq := by
        simpa [Nat.compare_eq_eq] using h'.symm
      simp [g1, g2]
    · have g1 : compare a.tx.txId b.tx.txId = .gt := by simpa [Nat.compare_eq_gt]
      have g2 : compare b.tx.txId a.tx.txId = .lt := by simpa [Nat.compare_eq_lt]
      simp [g1, g2]
  · have h1 : compare a.tx.priority b.tx.priority = .gt := by
      simpa [Nat.compare_eq_gt]
    have h2 : compare b.tx.priority a.tx.priority = .lt := by
      simpa [Nat.compare_eq_lt]
    simp [h1, h2, Ordering.then]

theorem cmp_lt_iff (a b : ParkedPoolTransaction) :
    a.cmp b = .lt ↔
      a.tx.priority < b.tx.priority ∨
        (a.tx.priority = b.tx.priority ∧ a.tx.txId < b.tx.txId) := by
  unfold ParkedPoolTransaction.cmp
  rcases Nat.lt_trichotomy a.tx.priority b.tx.priority with h | h | h
  · have h1 : compare a.tx.priority b.tx.priority = .lt := by
      simpa [Nat.compare_eq_lt]
    simp [h1, Ordering.then]
    omega
  · have h1 : compare a.tx.priority b.tx.priority = .eq := by
      simpa [Nat.compare_eq_eq]
    simp [h1, Ordering.then, Nat.compare_eq_lt]
    omega
  · have h1 : compare a.tx.priority b.tx.priority = .gt := by
      simpa [Nat.compare_eq_gt]
    simp [h1, Ordering.then]
    omega

theorem cmp_trans {a b c : ParkedPoolTransaction}
    (h1 : a.cmp b = .lt) (h2 : b.cmp c = .lt) : a.cmp c = .lt := by
  rw [cmp_lt_iff] at h1 h2 ⊢
  omega

theorem cmp_eq_of_mem_sorted {l : List ParkedPoolTransaction}
    (hs : l.Pairwise (fun a b => a.cmp b = .lt)) :
    ∀ y ∈ l, ∀ t ∈ l, y.cmp t = .eq → y = t := by
  induction l with
  | nil => intro y hy; simp at hy
  | cons x xs ih =>
    rcases List.pairwise_cons.mp hs with ⟨hx, hxs⟩
    intro y hy t ht heq
    rcases List.mem_cons.mp hy with h1 | h1
    · rcases List.mem_cons.mp ht with h2 | h2
      · exact h1.trans h2.symm
      · exfalso
        have hlt := hx t h2
        rw [h1] at heq
        rw [heq] at hlt
        exact Ordering.noConfusion hlt
    · rcases List.mem_cons.mp ht with h2 | h2
      · exfalso
        have hlt := hx y h1
        rw [h2] at heq
        rw [cmp_lt_iff] at hlt
        rw [cmp_eq_iff] at heq
        omega
      · exact ih hxs y h1 t h2 heq

theorem bestInsert_cons_lt {x y : ParkedPoolTransaction}
    {t : List ParkedPoolTransaction} (hc : x.cmp y = .lt) :
    bestInsert x (y :: t) = x :: y :: t := by
  simp only [bestInsert, hc]

theorem bestInsert_cons_eq {x y : ParkedPoolTransaction}
    {t : List ParkedPoolTransaction} (hc : x.cmp y = .eq) :
    bestInsert x (y :: t) = y :: t := by
  simp only [bestInsert, hc]

theorem bestInsert_cons_gt {x y : ParkedPoolTransaction}
    {t : List ParkedPoolTransaction} (hc : x.cmp y = .gt) :
    bestInsert x (y :: t) = y :: bestInsert x t := by
  simp only [bestInsert, hc]

theorem bestInsert_perm (x : ParkedPoolTransaction)
    {l : List ParkedPoolTransaction} (h : ∀ y ∈ l, x.cmp y ≠ .eq) :
    (bestInsert x l).Perm (x :: l) := by
  induction l with
  | nil => exact List.Perm.refl _
  | cons y t ih =>
    rcases hc : x.cmp y with hv | hv | hv
    · rw [bestInsert_cons_lt hc]
    · exact absurd hc (h y (List.mem_cons_self _ _))
    · rw [bestInsert_cons_gt hc]
      refine List.Perm.trans (List.Perm.cons y (ih ?_)) (List.Perm.swap x y t)
      intro z hz
      exact h z (List.mem_cons_of_mem _ hz)

theorem bestInsert_sorted (x : ParkedPoolTransaction)
    {l : List ParkedPoolTransaction}
    (hs : l.Pairwise (fun a b => a.cmp b = .lt))
    (h : ∀ y ∈ l, x.cmp y ≠ .eq) :
    (bestInsert x l).Pairwise (fun a b => a.cmp b = .lt) := by
  induction l with
  | nil => simp [bestInsert]
  | cons y t ih =>
    rcases List.pairwise_cons.mp hs with ⟨hy, ht⟩
    have htail : ∀ z ∈ t, x.cmp z ≠ .eq := fun z hz =>
      h z (List.mem_cons_of_mem _ hz)
    rcases hc : x.cmp y with hv | hv | hv
    · rw [bestInsert_cons_lt hc]
      refine List.Pairwise.cons ?_ hs
      intro z hz
      rcases List.mem_cons.mp hz with hz | hz
      · exact hz ▸ hc
      · exact cmp_trans hc (hy z hz)
    · exact absurd hc (h y (List.mem_cons_self _ _))
    · rw [bestInsert_cons_gt hc]
      refine List.Pairwise.cons ?_ (ih ht htail)
      intro z hz
      have hz' := (bestInsert_perm x htail).mem_iff.mp hz
      rcases List.mem_cons.mp hz' with hz' | hz'
      · rw [hz']
        exact (cmp_gt_iff_lt x y).mp hc
      · exact hy z hz'

theorem eraseP_perm_values {P : Type} {pk : Nat × P → Bool}
    {l : List (Nat × P)} {e : Nat × P} (hfind : l.find? pk = some e) :
    (e.2 :: (l.eraseP pk).map (·.2)).Perm (l.map (·.2)) := by
  induction l with
  | nil => simp at hfind
  | cons a t ih =>
    by_cases ha : pk a
    · rw [List.find?_cons_of_pos _ ha] at hfind
      cases hfind
      rw [List.eraseP_cons_of_pos ha]
      exact List.Perm.refl _
    · rw [List.find?_cons_of_neg _ ha] at hfind
      rw [List.eraseP_cons_of_neg ha]
      simpa using List.Perm.trans (List.Perm.swap a.2 e.2 _)
        (List.Perm.cons a.2 (ih hfind))

theorem ordering_beq_eq (o : Ordering) :
    ((o == Ordering.eq) = true) ↔ o = Ordering.eq := by
  cases o <;> decide

theorem eraseP_perm_best {l : List ParkedPoolTransaction}
    {t : ParkedPoolTransaction} (hmem : t ∈ l)
    (hy : ∀ y ∈ l, y.cmp t = .eq → y = t) :
    (t :: l.eraseP (fun x => x.cmp t == Ordering.eq)).Perm l := by
  induction l with
  | nil => simp at hmem
  | cons y ys ih =>
    by_cases hp : (y.cmp t == Ordering.eq) = true
    · have hyeq : y = t := hy y (List.mem_cons_self _ _)
        ((ordering_beq_eq _).mp hp)
      rw [List.eraseP_cons_of_pos (p := fun x : ParkedPoolTransaction => x.cmp t == Ordering.eq) hp,
        hyeq]
    · have hyt : y ≠ t := fun h => hp (by rw [h, cmp_irrefl]; decide)
      have hmem' : t ∈ ys := by
        rcases List.mem_cons.mp hmem with h | h
        · exact absurd h.symm hyt
        · exact h
      rw [List.eraseP_cons_of_neg (p := fun x : ParkedPoolTransaction => x.cmp t == Ordering.eq) hp]
      refine List.Perm.trans (List.Perm.swap y t _) (List.Perm.cons y (ih hmem' ?_))
      intro z hz
      exact hy z (List.mem_cons_of_mem _ hz)

theorem poolInv_add {p : ParkedPool} {tx : PoolTx} (inv : PoolInv p)
    (hfresh : (p.by_id.find? (fun e => e.1 == tx.txId)).isNone = true) :
    PoolInv (p.add_transaction tx) := by
  have hfresh' : ∀ e ∈ p.by_id, ¬(e.1 == tx.txId) = true := by
    intro e he
    exact List.find?_eq_none.mp (Option.isNone_iff_eq_none.mp hfresh) e he
  have hkeys : ∀ e ∈ p.by_id, e.1 ≠ tx.txId := by
    intro e he h
    exact hfresh' e he (by simpa using h)
  have herase : p.by_id.eraseP (fun e => e.1 == tx.txId) = p.by_id :=
    List.eraseP_of_forall_not hfresh'
  have hby : (p.add_transaction tx).by_id =
      (tx.txId, ⟨p.submission_id, tx⟩) :: p.by_id := by
    show mapInsert _ _ _ = _
    rw [mapInsert, herase]
  have hbest : (p.add_transaction tx).best =
      bestInsert ⟨p.submission_id, tx⟩ p.best := rfl
  have hrec : ∀ y ∈ p.best,
      (ParkedPoolTransaction.mk p.submission_id tx).cmp y ≠ .eq := by
    intro y hymem heq
    have hy' : y ∈ p.by_id.map (·.2) := inv.perm.symm.mem_iff.mp hymem
    rcases List.mem_map.mp hy' with ⟨e, he, hev⟩
    have hkeyed := inv.keyed e he
    rw [cmp_eq_iff] at heq
    apply hkeys e he
    rw [← hkeyed, hev, ← heq.2]
  constructor
  · rw [hby]
    exact List.Pairwise.cons (fun e he h => hkeys e he h.symm) inv.nodup
  · intro e he
    rw [hby] at he
    rcases List.mem_cons.mp he with he | he
    · rw [he]
    · exact inv.keyed e he
  · rw [hbest]
    exact bestInsert_sorted _ inv.sorted hrec
  · rw [hby, hbest]
    exact List.Perm.trans (List.Perm.cons _ inv.perm) (bestInsert_perm _ hrec).symm

theorem poolInv_remove {p : ParkedPool} {id : Nat} (inv : PoolInv p) :
    PoolInv (p.remove_transaction id).2 := by
  rcases hfind : p.by_id.find? (fun e => e.1 == id) with _ | e
  · have hsame : (p.remove_transaction id).2 = p := by
      rw [ParkedPool.remove_transaction, hfind]
    rw [hsame]
    exact inv
  · have hstate : (p.remove_transaction id).2 =
        { p with
          by_id := p.by_id.eraseP (fun e' => e'.1 == id)
          best := p.best.eraseP (fun x => x.cmp e.2 == Ordering.eq) } := by
      rw [ParkedPool.remove_transaction, hfind]
    have hmem : e ∈ p.by_id := List.mem_of_find?_eq_some hfind
    have hbest : e.2 ∈ p.best :=
      inv.perm.mem_iff.mp (List.mem_map.mpr ⟨e, hmem, rfl⟩)
    have huniq : ∀ y ∈ p.best, y.cmp e.2 = .eq → y = e.2 := by
      intro y hymem heq
      exact cmp_eq_of_mem_sorted inv.sorted y hymem e.2 hbest heq
    rw [hstate]
    constructor
    · exact inv.nodup.sublist (List.eraseP_sublist _)
    · intro e' he'
      exact inv.keyed e' ((List.eraseP_sublist _).subset he')
    · exact inv.sorted.sublist (List.eraseP_sublist _)
    · have h1 := eraseP_perm_values hfind
      have h2 := eraseP_perm_best hbest huniq
      exact List.Perm.cons_inv
        (List.Perm.trans h1 (List.Perm.trans inv.perm h2.symm))

theorem poolInv_applyOps :
    ∀ (ops : List PoolOp) (p : ParkedPool), PoolInv p →
      validOps p ops = true → PoolInv (applyOps p ops) := by
  intro ops
  induction ops with
  | nil => intro p inv _; exact inv
  | cons op rest ih =>
    intro p inv hvalid
    cases op with
    | add tx =>
      rw [validOps, Bool.and_eq_true] at hvalid
      exact ih _ (poolInv_add inv hvalid.1) hvalid.2
    | remove id =>
      rw [validOps] at hvalid
      exact ih _ (poolInv_remove inv) hvalid

theorem poolInv_empty : PoolInv ParkedPool.empty := by
  constructor <;> simp [ParkedPool.empty]

end RethSpec

namespace RethSpec

/-! ## Claim theorems: parked pool and the `db list` CLI -/

/-- C1 (counterexample).  Two transactions with equal priority: the first
`add_transaction` inserts transaction id 5 (submission id 0), the second
inserts transaction id 3 (submission id 1).  In the resulting `best` index
the later-submitted record (submission id 1) orders first, because the
comparator breaks priority ties by the transaction id, not by the
submission id — FIFO stability as claimed does not hold. -/
theorem parked_best_fifo_counterexample :
    (((ParkedPool.empty.add_transaction ⟨5, 10⟩).add_transaction
        ⟨3, 10⟩).best.map (fun r => r.submission_id) = [1, 0]) ∧
      ∀ r ∈ ((ParkedPool.empty.add_transaction ⟨5, 10⟩).add_transaction
        ⟨3, 10⟩).best, r.tx.priority = 10 := by
  decide

/-- C1 (amended).  The `best` index of a pool built by valid operations is
strictly sorted by the comparator `priority.then(transaction_id)`: ties
between equal-priority records are broken by the transaction id (the record
with the smaller transaction id orders first, regardless of submission
order), and the submission id plays no part in the comparison. -/
theorem parked_best_order (ops : List PoolOp)
    (hvalid : validOps ParkedPool.empty ops = true) :
    (applyOps ParkedPool.empty ops).best.Pairwise
        (fun a b => a.cmp b = .lt) ∧
      ∀ a b : ParkedPoolTransaction, a.tx.priority = b.tx.priority →
        (a.cmp b = .lt ↔ a.tx.txId < b.tx.txId) := by
  refine ⟨(poolInv_applyOps ops _ poolInv_empty hvalid).sorted, ?_⟩
  intro a b hprio
  rw [cmp_lt_iff]
  omega

/-- Witness for the amended C1 theorem at a concrete operation sequence. -/
theorem parked_best_order_witness :
    validOps ParkedPool.empty [.add ⟨5, 10⟩, .add ⟨3, 10⟩] = true ∧
      ((applyOps ParkedPool.empty [.add ⟨5, 10⟩, .add ⟨3, 10⟩]).best.Pairwise
          (fun a b => a.cmp b = .lt) ∧
        ∀ a b : ParkedPoolTransaction, a.tx.priority = b.tx.priority →
          (a.cmp b = .lt ↔ a.tx.txId < b.tx.txId)) :=
  ⟨by decide, parked_best_order [.add ⟨5, 10⟩, .add ⟨3, 10⟩] (by decide)⟩

/-- C6.  After every finite sequence of `add_transaction` and
`remove_transaction` operations with no duplicate insertions, the `by_id`
map and the `best` ordered set hold exactly the same transactions, and in
particular the two indexes have the same size. -/
theorem parked_pool_bijection (ops : List PoolOp)
    (hvalid : validOps ParkedPool.empty ops = true) :
    (∀ t : ParkedPoolTransaction,
        (∃ k, (k, t) ∈ (applyOps ParkedPool.empty ops).by_id) ↔
          t ∈ (applyOps ParkedPool.empty ops).best) ∧
      (applyOps ParkedPool.empty ops).by_id.length =
        (applyOps ParkedPool.empty ops).best.length := by
  have inv := poolInv_applyOps ops _ poolInv_empty hvalid
  constructor
  · intro t
    rw [← inv.perm.mem_iff, List.mem_map]
    constructor
    · rintro ⟨k, hk⟩
      exact ⟨(k, t), hk, rfl⟩
    · rintro ⟨e, he, hev⟩
      refine ⟨e.1, ?_⟩
      rw [← hev]
      exact he
  · calc (applyOps ParkedPool.empty ops).by_id.length
        = ((applyOps ParkedPool.empty ops).by_id.map (·.2)).length := by
          rw [List.length_map]
      _ = (applyOps ParkedPool.empty ops).best.length := inv.perm.length_eq

/-- Witness for C6 at a concrete operation sequence. -/
theorem parked_pool_bijection_witness :
    validOps ParkedPool.empty
        [.add ⟨5, 10⟩, .add ⟨3, 10⟩, .remove 5, .add ⟨7, 2⟩] = true ∧
      ((∀ t : ParkedPoolTransaction,
          (∃ k, (k, t) ∈ (applyOps ParkedPool.empty
            [.add ⟨5, 10⟩, .add ⟨3, 10⟩, .remove 5, .add ⟨7, 2⟩]).by_id) ↔
            t ∈ (applyOps ParkedPool.empty
              [.add ⟨5, 10⟩, .add ⟨3, 10⟩, .remove 5, .add ⟨7, 2⟩]).best) ∧
        (applyOps ParkedPool.empty
            [.add ⟨5, 10⟩, .add ⟨3, 10⟩, .remove 5, .add ⟨7, 2⟩]).by_id.length =
          (applyOps ParkedPool.empty
            [.add ⟨5, 10⟩, .add ⟨3, 10⟩, .remove 5, .add ⟨7, 2⟩]).best.length) :=
  ⟨by decide, parked_pool_bijection _ (by decide)⟩

/-- C10.  `remove_transaction` with an id that is not a key of the pool
returns `None` and leaves the whole pool state — `by_id`, `best` and the
`submission_id` counter — unchanged. -/
theorem remove_transaction_absent (p : ParkedPool) (id : Nat)
    (habsent : ∀ e ∈ p.by_id, e.1 ≠ id) :
    p.remove_transaction id = (none, p) := by
  rw [ParkedPool.remove_transaction, List.find?_eq_none.mpr]
  intro e he
  simpa using habsent e he

/-- Witness for C10 at a concrete pool and id. -/
theorem remove_transaction_absent_witness :
    (∀ e ∈ (ParkedPool.empty.add_transaction ⟨5, 10⟩).by_id, e.1 ≠ 4) ∧
      (ParkedPool.empty.add_transaction ⟨5, 10⟩).remove_transaction 4 =
        (none, ParkedPool.empty.add_transaction ⟨5, 10⟩) :=
  ⟨by decide, remove_transaction_absent _ 4 (by decide)⟩

/-- C9.  `reth db list` hard-panics (`_ => panic!()`) for every table-name
argument other than `"headers"` and `"txs"`; it never returns an error
result for an unknown table. -/
theorem db_list_panics (table : String)
    (h1 : table ≠ "headers") (h2 : table ≠ "txs") :
    DbTool.list table = .panicked := by
  rw [DbTool.list, if_neg h1, if_neg h2]

/-- Witness for C9 at a concrete unknown table name. -/
theorem db_list_panics_witness :
    ("senders" ≠ "headers" ∧ "senders" ≠ "txs") ∧
      DbTool.list "senders" = .panicked :=
  ⟨⟨by decide, by decide⟩, db_list_panics "senders" (by decide) (by decide)⟩

end RethSpec

namespace RethSpec

/-! ## Claim theorems: Senders stage output shape (C2) -/

/-- C2 (counterexample).  With input progress 0, previous stage progress 2
and commit threshold 1, `max_block = min(2, 0+1) = 1 > 0`, but block 1 is
empty, so `start_tx = 1 > 0 = end_tx` and the stage returns `done = true`
even though `max_block = 1 < 2 = previous_stage_progress`: the claimed
`done = (max_block ≥ previous_stage_progress)` is false here. -/
theorem senders_done_counterexample :
    (SendersStage.execute 100 1 (fun t => some (t + 100)) sendersEmptyBlockDB
        ⟨some 2, some 0⟩).2 = .ok ⟨1, true, true⟩ ∧
      ¬((2 : Nat) ≤ min 2 (0 + 1)) ∧
      (0 : Nat) < min 2 (0 + 1) := by
  refine ⟨by rfl, by decide, by decide⟩

/-- C2 (amended).  For every Senders-stage execute call that returns `Ok`
with `max_block = min(previous_stage_progress, stage_progress +
commit_threshold)` strictly greater than the input progress, the output has
`stage_progress = max_block` and `reached_tip = done`; moreover, whenever
the resolved transaction range is nonempty (`start_tx ≤ end_tx`), `done =
(max_block ≥ previous_stage_progress)`.  (When the range is empty the stage
returns `done = true` regardless.)  In particular, with input progress
1000, previous 1100 and threshold 50 over a seeded nonempty range, the
first call returns `done = false` with `stage_progress = 1050`. -/
theorem senders_execute_output
    (B C : Nat) (recover : Nat → Option Nat) (db : SendersDB)
    (input : ExecInput) (db' : SendersDB) (out : ExecOutput)
    (hlt : input.stage_progress.getD 0 <
      min input.previous_stage_progress (input.stage_progress.getD 0 + C))
    (hrun : SendersStage.execute B C recover db input = (db', .ok out)) :
    out.stage_progress =
        min input.previous_stage_progress (input.stage_progress.getD 0 + C) ∧
      out.reached_tip = out.done ∧
      ∀ b0 b1, db.bodies (input.stage_progress.getD 0 + 1) = some b0 →
        db.bodies (min input.previous_stage_progress
          (input.stage_progress.getD 0 + C)) = some b1 →
        b0.start_tx_id ≤ b1.last_tx_index →
        (out.done = true ↔ input.previous_stage_progress ≤
          min input.previous_stage_progress (input.stage_progress.getD 0 + C)) := by
  simp only [SendersStage.execute] at hrun
  rw [if_neg (by omega)] at hrun
  rcases h0 : db.bodies (input.stage_progress.getD 0 + 1) with _ | b0'
  · rw [h0] at hrun
    simp [Prod.ext_iff] at hrun
  · rw [h0] at hrun
    rcases h1 : db.bodies (min input.previous_stage_progress
        (input.stage_progress.getD 0 + C)) with _ | b1'
    · rw [h1] at hrun
      simp [Prod.ext_iff] at hrun
    · rw [h1] at hrun
      simp only at hrun
      by_cases hrange : b1'.last_tx_index < b0'.start_tx_id
      · rw [if_pos hrange] at hrun
        injection hrun with hdb hout
        injection hout with hout
        cases hout
        refine ⟨rfl, rfl, ?_⟩
        intro b0 b1 hb0 hb1 hle
        injection hb0 with hb0
        injection hb1 with hb1
        subst hb0
        subst hb1
        exact absurd hle (by omega)
      · rw [if_neg hrange] at hrun
        rcases hloop : sendersChunksLoop recover
            (chunks B (walkRange b0'.start_tx_id b1'.last_tx_index
              db.transactions)) db.senders with e | senders'
        · rw [hloop] at hrun
          simp [Prod.ext_iff] at hrun
        · rw [hloop] at hrun
          injection hrun with hdb hout
          injection hout with hout
          cases hout
          refine ⟨rfl, rfl, ?_⟩
          intro b0 b1 hb0 hb1 hle
          simp

set_option maxRecDepth 1000000 in
set_option maxHeartbeats 4000000 in
/-- Witness for the amended C2 theorem: the spec's intermediate-commit
scenario (progress 1000, previous 1100, threshold 50) over a seeded
database with one transaction per block.  The first call returns
`done = false`, `reached_tip = false`, `stage_progress = 1050`. -/
theorem senders_execute_output_witness :
    ((1000 : Nat) <
        min (ExecInput.mk (some 1100) (some 1000)).previous_stage_progress
          (1000 + 50)) ∧
      ((ExecOutput.mk 1050 false false).stage_progress =
          min (ExecInput.mk (some 1100)
            (some 1000)).previous_stage_progress (1000 + 50) ∧
        (ExecOutput.mk 1050 false false).reached_tip =
          (ExecOutput.mk 1050 false false).done ∧
        ∀ b0 b1, sendersWitnessDB.bodies (1000 + 1) = some b0 →
          sendersWitnessDB.bodies
            (min (ExecInput.mk (some 1100)
              (some 1000)).previous_stage_progress (1000 + 50)) = some b1 →
          b0.start_tx_id ≤ b1.last_tx_index →
          ((ExecOutput.mk 1050 false false).done = true ↔
            (ExecInput.mk (some 1100) (some 1000)).previous_stage_progress ≤
              min (ExecInput.mk (some 1100)
                (some 1000)).previous_stage_progress (1000 + 50))) :=
  ⟨by decide,
   senders_execute_output 100 50 (fun t => some (t + 7)) sendersWitnessDB
     ⟨some 1100, some 1000⟩
     ⟨sendersWitnessDB.bodies, sendersWitnessDB.transactions,
       (List.range 1051).map (fun i => (i, i + 7))⟩
     ⟨1050, false, false⟩ (by decide) (by rfl)⟩

end RethSpec

namespace RethSpec

/-! ## Senders stage coverage machinery (C5) -/

theorem chunksGo_congr (c : Nat) :
    ∀ (f1 : Nat) (l : List α) (f2 : Nat), l.length ≤ f1 → l.length ≤ f2 →
      chunksGo c f1 l = chunksGo c f2 l := by
  intro f1
  induction f1 with
  | zero =>
    intro l f2 h1 h2
    cases l with
    | nil => cases f2 <;> rfl
    | cons a t => simp at h1
  | succ g1 ih =>
    intro l f2 h1 h2
    cases l with
    | nil => cases f2 <;> rfl
    | cons a t =>
      cases f2 with
      | zero => simp at h2
      | succ g2 =>
        simp only [chunksGo]
        have hd : (t.drop (c - 1)).length ≤ g1 := by
          simp only [List.length_drop]
          simp only [List.length_cons] at h1
          omega
        have hd2 : (t.drop (c - 1)).length ≤ g2 := by
          simp only [List.length_drop]
          simp only [List.length_cons] at h2
          omega
        rw [ih _ _ hd hd2]

theorem chunks_cons (c : Nat) (a : α) (l : List α) :
    chunks c (a :: l) = (a :: l.take (c - 1)) :: chunks c (l.drop (c - 1)) := by
  show chunksGo c (a :: l).length (a :: l) = _
  simp only [List.length_cons, chunksGo, chunks]
  rw [chunksGo_congr c l.length (l.drop (c - 1)) (l.drop (c - 1)).length
    (by simp only [List.length_drop]; omega) (Nat.le_refl _)]

theorem chunks_flatten_aux (c : Nat) :
    ∀ (n : Nat) (l : List α), l.length ≤ n → (chunks c l).flatten = l := by
  intro n
  induction n with
  | zero =>
    intro l h
    cases l with
    | nil => rfl
    | cons a t => simp at h
  | succ m ih =>
    intro l h
    cases l with
    | nil => rfl
    | cons a t =>
      rw [chunks_cons, List.flatten_cons]
      have hlen : (t.drop (c - 1)).length ≤ m := by
        simp only [List.length_drop]
        simp only [List.length_cons] at h
        omega
      rw [ih (t.drop (c - 1)) hlen, List.cons_append, List.take_append_drop]

theorem chunks_flatten (c : Nat) (l : List α) : (chunks c l).flatten = l :=
  chunks_flatten_aux c l.length l (Nat.le_refl _)

theorem recoverAll_ok (recover : Nat → Option Nat) (sig : Nat → Nat) :
    ∀ (l : List (Nat × Nat)), (∀ kv ∈ l, recover kv.2 = some (sig kv.1)) →
      recoverAll recover l = .ok (l.map (fun kv => (kv.1, sig kv.1))) := by
  intro l
  induction l with
  | nil => intro h; rfl
  | cons kv rest ih =>
    intro h
    rcases kv with ⟨i, t⟩
    simp only [recoverAll]
    rw [h (i, t) (List.mem_cons_self _ _)]
    rw [ih (fun kv hkv => h kv (List.mem_cons_of_mem _ hkv))]
    rfl

theorem appendAll_ok :
    ∀ (l acc : List (Nat × Nat)),
      l.Chain' (fun a b => a.1 < b.1) →
      (∀ x ∈ acc.getLast?, ∀ y ∈ l.head?, x.1 < y.1) →
      appendAll acc l = .ok (acc ++ l) := by
  intro l
  induction l with
  | nil =>
    intro acc _ _
    rw [List.append_nil]
    rfl
  | cons kv rest ih =>
    intro acc hchain hcross
    rcases kv with ⟨k, v⟩
    simp only [appendAll]
    have hstep : (match acc.getLast? with
        | none => appendAll (acc ++ [(k, v)]) rest
        | some last => if last.1 < k then appendAll (acc ++ [(k, v)]) rest
                       else Except.error StageError.DbWrite) =
        appendAll (acc ++ [(k, v)]) rest := by
      rcases hlast : acc.getLast? with _ | last
      · rfl
      · simp only
        rw [if_pos (hcross last (by rw [hlast]; exact rfl) (k, v) rfl)]
    rw [hstep, ih (acc ++ [(k, v)]) hchain.tail ?_, List.append_assoc,
      List.singleton_append]
    intro x hx y hy
    rw [List.getLast?_concat] at hx
    cases hx
    exact (List.chain'_cons'.mp hchain).1 y hy

theorem sendersChunksLoop_ok (recover : Nat → Option Nat) (sig : Nat → Nat) :
    ∀ (cs : List (List (Nat × Nat))) (acc : List (Nat × Nat)),
      (∀ kv ∈ cs.flatten, recover kv.2 = some (sig kv.1)) →
      (cs.flatten).Chain' (fun a b => a.1 < b.1) →
      (∀ x ∈ acc.getLast?, ∀ y ∈ (cs.flatten).head?, x.1 < y.1) →
      sendersChunksLoop recover cs acc =
        .ok (acc ++ (cs.flatten).map (fun kv => (kv.1, sig kv.1))) := by
  intro cs
  induction cs with
  | nil =>
    intro acc _ _ _
    simp only [List.flatten_nil, List.map_nil, List.append_nil]
    rfl
  | cons c rest ih =>
    intro acc hrec hchain hcross
    rw [List.flatten_cons] at hrec hchain hcross
    rcases List.chain'_append.mp hchain with ⟨hc, hrest, hmid⟩
    have hrc : recoverAll recover c =
        .ok (c.map (fun kv => (kv.1, sig kv.1))) :=
      recoverAll_ok recover sig c
        (fun kv hkv => hrec kv (List.mem_append_left _ hkv))
    have hchainm : (c.map (fun kv => (kv.1, sig kv.1))).Chain'
        (fun a b => a.1 < b.1) := by
      rw [List.chain'_map]
      exact hc
    have hcrossm : ∀ x ∈ acc.getLast?,
        ∀ y ∈ (c.map (fun kv => (kv.1, sig kv.1))).head?, x.1 < y.1 := by
      intro x hx y hy
      cases c with
      | nil => simp at hy
      | cons c0 ctl =>
        rw [List.map_cons] at hy
        cases hy
        exact hcross x hx c0 rfl
    have hap : appendAll acc (c.map (fun kv => (kv.1, sig kv.1))) =
        .ok (acc ++ c.map (fun kv => (kv.1, sig kv.1))) :=
      appendAll_ok _ acc hchainm hcrossm
    have hstep : sendersChunksLoop recover (c :: rest) acc =
        sendersChunksLoop recover rest
          (acc ++ c.map (fun kv => (kv.1, sig kv.1))) := by
      simp only [sendersChunksLoop, hrc, hap]
    have hcross' : ∀ x ∈ (acc ++ c.map (fun kv => (kv.1, sig kv.1))).getLast?,
        ∀ y ∈ rest.flatten.head?, x.1 < y.1 := by
      intro x hx y hy
      cases c with
      | nil =>
        rw [List.map_nil, List.append_nil] at hx
        exact hcross x hx y hy
      | cons c0 ctl =>
        rw [List.getLast?_append_of_ne_nil _ (by simp),
          List.getLast?_map] at hx
        rcases Option.map_eq_some'.mp hx with ⟨kv0, hkv0, hkv0e⟩
        have hk := hmid kv0 (Option.mem_def.mpr hkv0) y hy
        rw [← hkv0e]
        exact hk
    rw [hstep,
      ih _ (fun kv hkv => hrec kv (List.mem_append_right _ hkv)) hrest hcross',
      List.append_assoc, ← List.map_append, List.flatten_cons]

theorem chain'_lt_range' : ∀ (k s : Nat), (List.range' s k).Chain' (· < ·) := by
  intro k
  induction k with
  | zero => intro s; exact List.chain'_nil
  | succ m ih =>
    intro s
    rw [List.range'_succ]
    rw [List.chain'_cons']
    refine ⟨?_, ih (s + 1)⟩
    intro y hy
    cases m with
    | zero => simp at hy
    | succ m' =>
      rw [List.range'_succ] at hy
      cases hy
      omega

theorem filter_range_ge (s : Nat) :
    ∀ T : Nat, (List.range T).filter (fun i => s ≤ i) = List.range' s (T - s) := by
  intro T
  induction T with
  | zero => rw [Nat.zero_sub]; rfl
  | succ T ih =>
    rw [List.range_succ, List.filter_append, ih]
    by_cases hsT : s ≤ T
    · have hfil : (List.filter (fun i => decide (s ≤ i)) [T]) = [T] := by
        simp [hsT]
      rw [hfil]
      have harith : s + 1 * (T - s) = T := by omega
      have happ := List.range'_append s (T - s) 1 1
      rw [harith, List.range'_one] at happ
      rw [happ]
      have : 1 + (T - s) = T + 1 - s := by omega
      rw [this]
    · have hfil : (List.filter (fun i => decide (s ≤ i)) [T]) = [] := by
        simp [hsT]
      rw [hfil, List.append_nil]
      have : T - s = T + 1 - s := by omega
      rw [this]

theorem walkRange_seeded (tr : Nat → Nat) (s e T : Nat) (hT : T ≤ e + 1) :
    walkRange s e ((List.range T).map (fun i => (i, tr i))) =
      (List.range' s (T - s)).map (fun i => (i, tr i)) := by
  rw [walkRange, List.filter_map]
  have hcong : ∀ i ∈ List.range T,
      ((fun kv : Nat × Nat => s ≤ kv.1 && kv.1 ≤ e) ∘ fun i => (i, tr i)) i =
        (fun i => decide (s ≤ i)) i := by
    intro i hi
    have hiT := List.mem_range.mp hi
    have hie : i ≤ e := by omega
    simp [hie]
  rw [List.filter_congr hcong, filter_range_ge]

theorem firstTxOf_mono (cnt : Nat → Nat) :
    ∀ {a b : Nat}, a ≤ b → firstTxOf cnt a ≤ firstTxOf cnt b := by
  intro a b h
  induction b with
  | zero =>
    have : a = 0 := Nat.le_zero.mp h
    rw [this]
  | succ b ih =>
    rcases Nat.eq_or_lt_of_le h with heq | hlt
    · rw [heq]
    · have hab : a ≤ b := by omega
      exact le_trans (ih hab) (Nat.le_add_right _ _)

end RethSpec

namespace RethSpec

/-- C5.  Running Senders-stage execute with `previous_stage_progress = n`
and a commit threshold of at least `n - stage_progress` over a database
whose `BlockBodies` and `Transactions` tables are seeded gap-free up to
block `n` and whose `TxSenders` entries already cover the input progress
leaves `TxSenders` holding exactly `(i, recover_signer(Transactions(i)))`
for every transaction index `i` in `[0, BlockBodies(n).last_tx_index]` and
nothing above it. -/
theorem senders_execute_covers
    (n C B sp : Nat) (cnt tr sig : Nat → Nat) (recover : Nat → Option Nat)
    (hsp : sp ≤ n) (hC : n ≤ sp + C)
    (hrec : ∀ i < firstTxOf cnt (n + 1), recover (tr i) = some (sig i))
    (hpos : 0 < firstTxOf cnt (n + 1)) :
    SendersStage.execute B C recover
        ⟨seededBodies cnt n, seededTxs cnt tr n, seededSenders cnt sig sp⟩
        ⟨some n, some sp⟩ =
      (⟨seededBodies cnt n, seededTxs cnt tr n,
         (List.range (firstTxOf cnt (n + 1))).map (fun i => (i, sig i))⟩,
       .ok ⟨n, true, true⟩) ∧
      ∀ i s', ((i, s') ∈ (List.range (firstTxOf cnt (n + 1))).map
          (fun i => (i, sig i))) ↔
        (i ≤ (StoredBlockBody.mk (firstTxOf cnt n) (cnt n)).last_tx_index ∧
          s' = sig i) := by
  have hTn : firstTxOf cnt (n + 1) = firstTxOf cnt n + cnt n := rfl
  constructor
  · -- the execution itself
    have hST : firstTxOf cnt (sp + 1) ≤ firstTxOf cnt (n + 1) :=
      firstTxOf_mono cnt (by omega)
    simp only [SendersStage.execute, ExecInput.previous_stage_progress,
      Option.getD_some]
    simp only [min_eq_left hC]
    by_cases hEq : n ≤ sp
    · have hspn : sp = n := le_antisymm hsp hEq
      subst hspn
      rw [if_pos hEq]
      simp only [seededSenders]
    · rw [if_neg hEq]
      have hb1 : seededBodies cnt n (sp + 1) =
          some ⟨firstTxOf cnt (sp + 1), cnt (sp + 1)⟩ := by
        rw [seededBodies]
        rw [if_pos (by omega)]
      have hb2 : seededBodies cnt n n =
          some ⟨firstTxOf cnt n, cnt n⟩ := by
        rw [seededBodies]
        rw [if_pos (le_refl n)]
      simp only [hb1, hb2]
      dsimp only [StoredBlockBody.last_tx_index]
      by_cases hrange : firstTxOf cnt n + cnt n - 1 < firstTxOf cnt (sp + 1)
      · rw [if_pos hrange]
        have hSTeq : firstTxOf cnt (sp + 1) = firstTxOf cnt (n + 1) := by
          omega
        have hsame : seededSenders cnt sig sp =
            (List.range (firstTxOf cnt (n + 1))).map (fun i => (i, sig i)) := by
          rw [seededSenders, hSTeq]
        rw [← hsame]
      · rw [if_neg hrange]
        have hSle : firstTxOf cnt (sp + 1) ≤ firstTxOf cnt n + cnt n - 1 := by
          omega
        have hwalk : walkRange (firstTxOf cnt (sp + 1))
            (firstTxOf cnt n + cnt n - 1)
            (seededTxs cnt tr n) =
            (List.range' (firstTxOf cnt (sp + 1))
              (firstTxOf cnt (n + 1) - firstTxOf cnt (sp + 1))).map
              (fun i => (i, tr i)) := by
          rw [seededTxs]
          exact walkRange_seeded tr _ _ _ (by rw [hTn]; omega)
        rw [hwalk]
        have hloop : sendersChunksLoop recover
            (chunks B ((List.range' (firstTxOf cnt (sp + 1))
              (firstTxOf cnt (n + 1) - firstTxOf cnt (sp + 1))).map
              (fun i => (i, tr i)))) (seededSenders cnt sig sp) =
            .ok (seededSenders cnt sig sp ++
              ((List.range' (firstTxOf cnt (sp + 1))
                (firstTxOf cnt (n + 1) - firstTxOf cnt (sp + 1))).map
                (fun i => (i, tr i))).map (fun kv => (kv.1, sig kv.1))) := by
          rw [sendersChunksLoop_ok recover sig _ _ ?hmem ?hchain ?hcross,
            chunks_flatten]
          case hmem =>
            rw [chunks_flatten]
            intro kv hkv
            rcases List.mem_map.mp hkv with ⟨j, hj, hje⟩
            rcases List.mem_range'_1.mp hj with ⟨hj1, hj2⟩
            rw [← hje]
            exact hrec j (by omega)
          case hchain =>
            rw [chunks_flatten, List.chain'_map]
            exact chain'_lt_range' _ _
          case hcross =>
            rw [chunks_flatten]
            intro x hx y hy
            rw [seededSenders, List.getLast?_map] at hx
            rcases Option.map_eq_some'.mp hx with ⟨j, hj, hje⟩
            have hjS : j < firstTxOf cnt (sp + 1) :=
              List.mem_range.mp (List.mem_of_mem_getLast? (Option.mem_def.mpr hj))
            rcases hk : firstTxOf cnt (n + 1) - firstTxOf cnt (sp + 1) with _ | k
            · rw [hTn] at hk
              omega
            · rw [hk, List.range'_succ, List.map_cons] at hy
              cases hy
              rw [← hje]
              simpa using hjS
        rw [hloop]
        have hsenders : seededSenders cnt sig sp ++
            ((List.range' (firstTxOf cnt (sp + 1))
              (firstTxOf cnt (n + 1) - firstTxOf cnt (sp + 1))).map
              (fun i => (i, tr i))).map (fun kv => (kv.1, sig kv.1)) =
            (List.range (firstTxOf cnt (n + 1))).map (fun i => (i, sig i)) := by
          rw [List.map_map]
          have hdone : ((fun kv : Nat × Nat => (kv.1, sig kv.1)) ∘
              fun i => (i, tr i)) = fun i => (i, sig i) := rfl
          rw [hdone, seededSenders, List.range_eq_range', List.range_eq_range',
            ← List.map_append]
          have happ := List.range'_append 0 (firstTxOf cnt (sp + 1))
            (firstTxOf cnt (n + 1) - firstTxOf cnt (sp + 1)) 1
          have h01 : 0 + 1 * firstTxOf cnt (sp + 1) = firstTxOf cnt (sp + 1) := by
            omega
          rw [h01] at happ
          rw [happ]
          have : firstTxOf cnt (n + 1) - firstTxOf cnt (sp + 1) +
              firstTxOf cnt (sp + 1) = firstTxOf cnt (n + 1) := by
            omega
          rw [this]
        rw [hsenders]
        have hdone : (decide (n ≤ n)) = true := by simp
        rw [hdone]
  · -- membership characterisation of the final TxSenders table
    intro i s'
    rw [List.mem_map]
    constructor
    · rintro ⟨j, hj, hje⟩
      rw [List.mem_range] at hj
      injection hje with hje1 hje2
      constructor
      · show i ≤ firstTxOf cnt n + cnt n - 1
        rw [hTn] at hj
        omega
      · rw [← hje2, hje1]
    · rintro ⟨hle, rfl⟩
      refine ⟨i, List.mem_range.mpr ?_, rfl⟩
      have hle' : i ≤ firstTxOf cnt n + cnt n - 1 := hle
      rw [hTn]
      omega

/-- Witness for C5 at a concrete seeded chain: three blocks with 1, 0 and 2
transactions, progress 0, previous stage progress 2. -/
theorem senders_execute_covers_witness :
    ((0 : Nat) ≤ 2 ∧ (2 : Nat) ≤ 0 + 5 ∧
      (∀ i < firstTxOf (fun b => if b = 0 then 1 else if b = 2 then 2 else 0)
        (2 + 1), (fun t => some (t * 2)) ((fun j => j + 10) i) =
          some ((fun j => j * 2 + 20) i)) ∧
      0 < firstTxOf (fun b => if b = 0 then 1 else if b = 2 then 2 else 0)
        (2 + 1)) ∧
    (SendersStage.execute 2 5 (fun t => some (t * 2))
        ⟨seededBodies (fun b => if b = 0 then 1 else if b = 2 then 2 else 0) 2,
         seededTxs (fun b => if b = 0 then 1 else if b = 2 then 2 else 0)
           (fun j => j + 10) 2,
         seededSenders (fun b => if b = 0 then 1 else if b = 2 then 2 else 0)
           (fun j => j * 2 + 20) 0⟩
        ⟨some 2, some 0⟩ =
      (⟨seededBodies (fun b => if b = 0 then 1 else if b = 2 then 2 else 0) 2,
        seededTxs (fun b => if b = 0 then 1 else if b = 2 then 2 else 0)
          (fun j => j + 10) 2,
        (List.range (firstTxOf
          (fun b => if b = 0 then 1 else if b = 2 then 2 else 0) (2 + 1))).map
          (fun i => (i, (fun j => j * 2 + 20) i))⟩,
       .ok ⟨2, true, true⟩) ∧
      ∀ i s', ((i, s') ∈ (List.range (firstTxOf
          (fun b => if b = 0 then 1 else if b = 2 then 2 else 0) (2 + 1))).map
          (fun i => (i, (fun j => j * 2 + 20) i))) ↔
        (i ≤ (StoredBlockBody.mk
            (firstTxOf (fun b => if b = 0 then 1 else if b = 2 then 2 else 0) 2)
            ((fun b => if b = 0 then 1 else if b = 2 then 2 else 0) 2)).last_tx_index ∧
          s' = (fun j => j * 2 + 20) i)) :=
  ⟨⟨by decide, by decide, by decide, by decide⟩,
   senders_execute_covers 2 5 2 0
     (fun b => if b = 0 then 1 else if b = 2 then 2 else 0)
     (fun j => j + 10) (fun j => j * 2 + 20) (fun t => some (t * 2))
     (by decide) (by decide) (by decide) (by decide)⟩

end RethSpec

namespace RethSpec

/-! ## Claim theorems: Headers stage errors and head/tip lookup -/

/-- C7.  Headers-stage execute with stage progress 0 (or unset) over a
database holding no canonical header for block 0 fails with
`DatabaseIntegrity(CanonicalHeader { number: 0 })` and leaves the database
untouched. -/
theorem headers_empty_db_error (c : Nat) (db : HeadersDB)
    (fcs : List ForkchoiceState)
    (stream : List (Except DownloadError SealedHeader)) (input : ExecInput)
    (hsp : input.stage_progress = none ∨ input.stage_progress = some 0)
    (hdb : alookup 0 db.canonical = none) :
    HeaderStage.execute c db fcs stream input =
      some (db, .error (.DatabaseIntegrity (.CanonicalHeader 0))) := by
  have hsp0 : input.stage_progress.getD 0 = 0 := by
    rcases hsp with h | h <;> rw [h] <;> rfl
  have hup : updateHead db 0 =
      .error (.DatabaseIntegrity (.CanonicalHeader 0)) := by
    simp only [updateHead, hdb]
  simp only [HeaderStage.execute, hsp0, hup]

/-- Witness for C7 on a concrete empty database. -/
theorem headers_empty_db_error_witness :
    (((ExecInput.mk (some 5) (some 0)).stage_progress = none ∨
        (ExecInput.mk (some 5) (some 0)).stage_progress = some 0) ∧
      alookup 0 (HeadersDB.mk [] [] [] []).canonical = none) ∧
      HeaderStage.execute 1 (HeadersDB.mk [] [] [] []) [] []
          (ExecInput.mk (some 5) (some 0)) =
        some (HeadersDB.mk [] [] [] [],
          .error (.DatabaseIntegrity (.CanonicalHeader 0))) :=
  ⟨⟨Or.inr rfl, rfl⟩,
   headers_empty_db_error 1 (HeadersDB.mk [] [] [] []) [] []
     (ExecInput.mk (some 5) (some 0)) (Or.inr rfl) rfl⟩

/-- C8.  When the first chunk of the downloader stream collects to a
`Timeout` error, Headers-stage execute returns `Recoverable` and the
database it hands back is exactly the input database: no table row is
added, removed or modified. -/
theorem headers_timeout_recoverable (c : Nat) (db : HeadersDB)
    (fcs : List ForkchoiceState)
    (stream : List (Except DownloadError SealedHeader)) (input : ExecInput)
    (head : SealedHeader) (tip : Nat)
    (ch : List (Except DownloadError SealedHeader))
    (rest : List (List (Except DownloadError SealedHeader)))
    (hup : updateHead db (input.stage_progress.getD 0) = .ok ())
    (hht : getHeadAndTip db fcs (input.stage_progress.getD 0) =
      some (.ok (head, tip)))
    (hchunks : chunks c stream = ch :: rest)
    (hcol : collectResults ch = .error .Timeout) :
    HeaderStage.execute c db fcs stream input =
      some (db, .error (.Recoverable .Timeout)) := by
  simp only [HeaderStage.execute, hup, hht, hchunks, headersLoop, hcol]

/-- Witness for C8: head 100 with total difficulty present, forkchoice
publishing hash 600, downloader yielding a single `Timeout`. -/
theorem headers_timeout_recoverable_witness :
    (updateHead
        (HeadersDB.mk [(100, 500)] [(500, 100)]
          [((100, 500), ⟨499, 100, 7⟩)] [((100, 500), 77)])
        ((ExecInput.mk (some 500) (some 100)).stage_progress.getD 0) = .ok () ∧
      getHeadAndTip
        (HeadersDB.mk [(100, 500)] [(500, 100)]
          [((100, 500), ⟨499, 100, 7⟩)] [((100, 500), 77)])
        [ForkchoiceState.mk 600 0 0]
        ((ExecInput.mk (some 500) (some 100)).stage_progress.getD 0) =
        some (.ok (⟨⟨499, 100, 7⟩, 500⟩, 600)) ∧
      chunks 5 [(.error .Timeout : Except DownloadError SealedHeader)] =
        [(.error .Timeout : Except DownloadError SealedHeader)] :: [] ∧
      collectResults [(.error .Timeout : Except DownloadError SealedHeader)] =
        .error .Timeout) ∧
      HeaderStage.execute 5
          (HeadersDB.mk [(100, 500)] [(500, 100)]
            [((100, 500), ⟨499, 100, 7⟩)] [((100, 500), 77)])
          [ForkchoiceState.mk 600 0 0]
          [(.error .Timeout : Except DownloadError SealedHeader)]
          (ExecInput.mk (some 500) (some 100)) =
        some (HeadersDB.mk [(100, 500)] [(500, 100)]
            [((100, 500), ⟨499, 100, 7⟩)] [((100, 500), 77)],
          .error (.Recoverable .Timeout)) :=
  ⟨⟨by decide, by decide, by decide, by decide⟩,
   headers_timeout_recoverable 5 _ _ _ (ExecInput.mk (some 500) (some 100))
     ⟨⟨499, 100, 7⟩, 500⟩ 600
     [(.error .Timeout : Except DownloadError SealedHeader)] []
     (by decide) (by decide) (by decide) (by decide)⟩

/-- C3.  Head-and-tip determination at progress `p` with the canonical head
present: (1) if the next canonical header exists and its number is not
`p + 1`, the tip is that header's parent hash; (2) if no next canonical
header exists, the tip is the head hash of the first forkchoice state whose
head hash is non-zero and differs from the current head's hash; (3) if the
next canonical header's number is exactly `p + 1`, the call fails with
`StageProgress(p)`, and an execute call hitting this path hands back the
input database unchanged (progress is not advanced). -/
theorem headers_head_and_tip (db : HeadersDB) (fcs : List ForkchoiceState)
    (p : Nat) (head_hash : Nat) (head : Header)
    (hch : alookup p db.canonical = some head_hash)
    (hhd : alookup (p, head_hash) db.headers = some head) :
    (∀ nxt nxtHeader, nextAfter p db.canonical = some nxt →
        alookup nxt db.headers = some nxtHeader →
        p + 1 ≠ nxtHeader.number →
        getHeadAndTip db fcs p =
          some (.ok (⟨head, head_hash⟩, nxtHeader.parent_hash))) ∧
      (∀ st, nextAfter p db.canonical = none →
        nextForkChoiceState head_hash fcs = some st →
        getHeadAndTip db fcs p =
          some (.ok (⟨head, head_hash⟩, st.head_block_hash))) ∧
      (∀ nxt nxtHeader, nextAfter p db.canonical = some nxt →
        alookup nxt db.headers = some nxtHeader →
        p + 1 = nxtHeader.number →
        getHeadAndTip db fcs p = some (.error (.StageProgress p)) ∧
          (updateHead db p = .ok () → ∀ c stream,
            HeaderStage.execute c db fcs stream ⟨none, some p⟩ =
              some (db, .error (.StageProgress p)))) := by
  refine ⟨?_, ?_, ?_⟩
  · intro nxt nxtHeader hnxt hnxthd hne
    simp only [getHeadAndTip, hch, hhd, hnxt, hnxthd, if_pos hne]
  · intro st hnone hfc
    simp only [getHeadAndTip, hch, hhd, hnone, hfc, Option.map_some']
  · intro nxt nxtHeader hnxt hnxthd heq
    have hne : ¬(p + 1 ≠ nxtHeader.number) := fun hcon => hcon heq
    have hht : getHeadAndTip db fcs p = some (.error (.StageProgress p)) := by
      simp only [getHeadAndTip, hch, hhd, hnxt, hnxthd, if_neg hne]
    refine ⟨hht, ?_⟩
    intro hup c stream
    have hsp0 : (ExecInput.mk none (some p)).stage_progress.getD 0 = p := rfl
    simp only [HeaderStage.execute, hsp0, hup, hht]

/-- Witness for C3 on a concrete database exercising all three branches'
hypotheses at once is impossible (they are mutually exclusive), so the
witness discharges the shared hypotheses at a gap database and derives the
three implications. -/
theorem headers_head_and_tip_witness :
    (alookup 0 (HeadersDB.mk [(0, 10), (2, 30)] [] [((0, 10), ⟨0, 0, 1⟩),
        ((2, 30), ⟨20, 2, 1⟩)] []).canonical = some 10 ∧
      alookup (0, 10) (HeadersDB.mk [(0, 10), (2, 30)] [] [((0, 10), ⟨0, 0, 1⟩),
        ((2, 30), ⟨20, 2, 1⟩)]  []).headers = some ⟨0, 0, 1⟩) ∧
      (∀ nxt nxtHeader, nextAfter 0 (HeadersDB.mk [(0, 10), (2, 30)] []
          [((0, 10), ⟨0, 0, 1⟩), ((2, 30), ⟨20, 2, 1⟩)] []).canonical = some nxt →
        alookup nxt (HeadersDB.mk [(0, 10), (2, 30)] []
          [((0, 10), ⟨0, 0, 1⟩), ((2, 30), ⟨20, 2, 1⟩)] []).headers = some nxtHeader →
        0 + 1 ≠ nxtHeader.number →
        getHeadAndTip (HeadersDB.mk [(0, 10), (2, 30)] []
            [((0, 10), ⟨0, 0, 1⟩), ((2, 30), ⟨20, 2, 1⟩)] []) [⟨40, 0, 0⟩] 0 =
          some (.ok (⟨⟨0, 0, 1⟩, 10⟩, nxtHeader.parent_hash))) := by
  refine ⟨⟨by decide, by decide⟩, ?_⟩
  exact (headers_head_and_tip _ [⟨40, 0, 0⟩] 0 10 ⟨0, 0, 1⟩
    (by decide) (by decide)).1

end RethSpec

namespace RethSpec

/-! ## Headers stage write machinery (C4) -/

theorem chunksGo_map (c : Nat) (f : α → β) :
    ∀ (fuel : Nat) (l : List α),
      chunksGo c fuel (l.map f) = (chunksGo c fuel l).map (List.map f) := by
  intro fuel
  induction fuel with
  | zero =>
    intro l
    cases l <;> rfl
  | succ g ih =>
    intro l
    cases l with
    | nil => rfl
    | cons a t =>
      simp only [List.map_cons, chunksGo]
      rw [← List.map_drop, ih, List.map_take]

theorem chunks_map (c : Nat) (f : α → β) (l : List α) :
    chunks c (l.map f) = (chunks c l).map (List.map f) := by
  rw [chunks, chunks, List.length_map, chunksGo_map]

theorem collect_map_ok :
    ∀ l : List SealedHeader, collectResults (l.map Except.ok) = .ok l := by
  intro l
  induction l with
  | nil => rfl
  | cons a t ih =>
    simp only [List.map_cons, collectResults, ih]

theorem validate_of_chain' :
    ∀ l : List SealedHeader,
      l.Chain' (fun a b => ensureParent a b = true) →
      validateHeaderResponse l = .ok () := by
  intro l
  induction l with
  | nil => intro _; rfl
  | cons a t ih =>
    intro h
    cases t with
    | nil => rfl
    | cons b rest =>
      rcases List.chain'_cons.mp h with ⟨hab, hrest⟩
      simp only [validateHeaderResponse, if_pos hab]
      exact ih hrest

theorem ainsert_append {κ ν : Type} [DecidableEq κ] (lt : κ → κ → Bool)
    (k : κ) (v : ν) :
    ∀ (l0 l1 : List (κ × ν)),
      (∀ e ∈ l0, lt e.1 k = true ∧ lt k e.1 = false ∧ k ≠ e.1) →
      (∀ e ∈ l1, lt k e.1 = true) →
      ainsert lt k v (l0 ++ l1) = l0 ++ (k, v) :: l1 := by
  intro l0
  induction l0 with
  | nil =>
    intro l1 _ h1
    cases l1 with
    | nil => rfl
    | cons e t =>
      rcases e with ⟨k', v'⟩
      show ainsert lt k v ((k', v') :: t) = (k, v) :: (k', v') :: t
      rw [ainsert, if_pos (h1 (k', v') (List.mem_cons_self _ _))]
  | cons e l0' ih =>
    intro l1 h0 h1
    rcases e with ⟨k', v'⟩
    rcases h0 (k', v') (List.mem_cons_self _ _) with ⟨-, hlt, hne⟩
    show ainsert lt k v ((k', v') :: (l0' ++ l1)) = _
    rw [ainsert, if_neg (by rw [hlt]; exact Bool.false_ne_true), if_neg hne,
      ih l1 (fun e he => h0 e (List.mem_cons_of_mem _ he)) h1]
    rfl

end RethSpec

namespace RethSpec

theorem bnhLt_of_num_lt {a b : Nat × Nat} (h : a.1 < b.1) : bnhLt a b = true := by
  simp [bnhLt, h]

theorem bnhLt_false_of_num_lt {a b : Nat × Nat} (h : b.1 < a.1) :
    bnhLt a b = false := by
  simp [bnhLt]
  omega

theorem writeFold_effect :
    ∀ (a : List SealedHeader) (db : HeadersDB) (lat : Option Nat)
      (Lh Rh : List ((Nat × Nat) × Header)) (Lc Rc : List (Nat × Nat)),
      db.headers = Lh ++ Rh → db.canonical = Lc ++ Rc →
      (∀ e ∈ Lh, ∀ s ∈ a, e.1.1 < s.header.number) →
      (∀ e ∈ Rh, ∀ s ∈ a, s.header.number < e.1.1) →
      (∀ e ∈ Lc, ∀ s ∈ a, e.1 < s.header.number) →
      (∀ e ∈ Rc, ∀ s ∈ a, s.header.number < e.1) →
      a.Pairwise (fun s t => s.header.number < t.header.number) →
      (∀ s ∈ a, 1 ≤ s.header.number) →
      ∃ hn lat',
        List.foldl writeHeadersStep (db, lat) a =
          (⟨Lc ++ cEntries a ++ Rc, hn, Lh ++ hEntries a ++ Rh, db.headerTD⟩,
            lat') := by
  intro a
  induction a with
  | nil =>
    intro db lat Lh Rh Lc Rc hh hc _ _ _ _ _ _
    refine ⟨db.headerNumbers, lat, ?_⟩
    simp only [List.foldl_nil, cEntries, hEntries, List.map_nil,
      List.append_nil, List.nil_append, ← hh, ← hc]
  | cons s0 rest ih =>
    intro db lat Lh Rh Lc Rc hh hc hLh hRh hLc hRc hasc hpos1
    rcases List.pairwise_cons.mp hasc with ⟨hs0, hasc'⟩
    have hn0 : 1 ≤ s0.header.number := hpos1 s0 (List.mem_cons_self _ _)
    have hstep : writeHeadersStep (db, lat) s0 =
        ({ db with
            headerNumbers := ainsert natLt s0.hash s0.header.number db.headerNumbers
            headers := ainsert bnhLt (s0.header.number, s0.hash) s0.header db.headers
            canonical := ainsert natLt s0.header.number s0.hash db.canonical },
          some s0.header.number) := by
      rw [writeHeadersStep, if_neg (by omega)]
    have hinsh : ainsert bnhLt (s0.header.number, s0.hash) s0.header db.headers =
        Lh ++ ((s0.header.number, s0.hash), s0.header) :: Rh := by
      rw [hh]
      refine ainsert_append bnhLt _ _ Lh Rh ?_ ?_
      · intro e he
        have hlt := hLh e he s0 (List.mem_cons_self _ _)
        refine ⟨bnhLt_of_num_lt hlt, bnhLt_false_of_num_lt hlt, ?_⟩
        intro hcon
        rw [← hcon] at hlt
        exact Nat.lt_irrefl _ hlt
      · intro e he
        exact bnhLt_of_num_lt (hRh e he s0 (List.mem_cons_self _ _))
    have hinsc : ainsert natLt s0.header.number s0.hash db.canonical =
        Lc ++ (s0.header.number, s0.hash) :: Rc := by
      rw [hc]
      refine ainsert_append natLt _ _ Lc Rc ?_ ?_
      · intro e he
        have hlt := hLc e he s0 (List.mem_cons_self _ _)
        refine ⟨by simpa [natLt] using hlt, by simp [natLt]; omega, ?_⟩
        intro hcon
        rw [← hcon] at hlt
        exact Nat.lt_irrefl _ hlt
      · intro e he
        exact by simpa [natLt] using hRc e he s0 (List.mem_cons_self _ _)
    rw [List.foldl_cons, hstep]
    have hmemtail : ∀ s ∈ rest, s ∈ s0 :: rest :=
      fun s hs => List.mem_cons_of_mem _ hs
    rcases ih
        { db with
          headerNumbers := ainsert natLt s0.hash s0.header.number db.headerNumbers
          headers := ainsert bnhLt (s0.header.number, s0.hash) s0.header db.headers
          canonical := ainsert natLt s0.header.number s0.hash db.canonical }
        (some s0.header.number)
        (Lh ++ [((s0.header.number, s0.hash), s0.header)]) Rh
        (Lc ++ [(s0.header.number, s0.hash)]) Rc
        (by rw [hinsh]; simp)
        (by rw [hinsc]; simp)
        (by
          intro e he s hs
          rcases List.mem_append.mp he with he | he
          · exact hLh e he s (hmemtail s hs)
          · rcases List.mem_singleton.mp he with rfl
            exact hs0 s hs)
        (fun e he s hs => hRh e he s (hmemtail s hs))
        (by
          intro e he s hs
          rcases List.mem_append.mp he with he | he
          · exact hLc e he s (hmemtail s hs)
          · rcases List.mem_singleton.mp he with rfl
            exact hs0 s hs)
        (fun e he s hs => hRc e he s (hmemtail s hs))
        hasc'
        (fun s hs => hpos1 s (hmemtail s hs)) with ⟨hn, lat', hres⟩
    refine ⟨hn, lat', ?_⟩
    rw [hres]
    simp only [cEntries, hEntries, List.map_cons]
    rw [List.append_assoc Lc, List.append_assoc Lh]
    rfl

end RethSpec

namespace RethSpec

theorem headersLoop_effect (sp p : Nat) (base : HeadersDB) :
    ∀ (cs : List (List SealedHeader)) (doneAsc : List SealedHeader)
      (db : HeadersDB) (cur : Nat),
      db.headers = base.headers ++ hEntries doneAsc →
      db.canonical = base.canonical ++ cEntries doneAsc →
      db.headerTD = base.headerTD →
      (∀ e ∈ base.headers, e.1.1 ≤ p) →
      (∀ e ∈ base.canonical, e.1 ≤ p) →
      (∀ s ∈ cs.flatten, p + 1 ≤ s.header.number) →
      cs.flatten.Chain' (fun a b => ensureParent a b = true) →
      cs.flatten.Pairwise (fun a b => b.header.number < a.header.number) →
      (∀ s ∈ cs.flatten, ∀ d ∈ doneAsc, s.header.number < d.header.number) →
      ∃ hn cur',
        headersLoop db sp cur (cs.map (List.map Except.ok)) =
          (⟨base.canonical ++ cEntries (cs.flatten.reverse ++ doneAsc), hn,
            base.headers ++ hEntries (cs.flatten.reverse ++ doneAsc),
            base.headerTD⟩, .ok cur') := by
  intro cs
  induction cs with
  | nil =>
    intro doneAsc db cur hh hc htd _ _ _ _ _ _
    refine ⟨db.headerNumbers, cur, ?_⟩
    simp only [List.map_nil, headersLoop, List.flatten_nil,
      List.reverse_nil, List.nil_append]
    cases db
    simp only at hh hc htd
    simp only [hh, hc, htd]
  | cons ch rest ih =>
    intro doneAsc db cur hh hc htd hbh hbc hnum hlink hdesc hbelow
    rw [List.flatten_cons] at hnum hlink hdesc hbelow
    have hmemch : ∀ s ∈ ch, s ∈ ch ++ rest.flatten :=
      fun s hs => List.mem_append_left _ hs
    have hmemrest : ∀ s ∈ rest.flatten, s ∈ ch ++ rest.flatten :=
      fun s hs => List.mem_append_right _ hs
    rcases List.chain'_append.mp hlink with ⟨hlinkch, hlinkrest, -⟩
    rcases List.pairwise_append.mp hdesc with ⟨hdescch, hdescrest, hcross⟩
    rcases writeFold_effect ch.reverse db none base.headers (hEntries doneAsc)
        base.canonical (cEntries doneAsc) hh hc
        (by
          intro e he s hs
          have hs' := List.mem_reverse.mp hs
          have := hnum s (hmemch s hs')
          have := hbh e he
          omega)
        (by
          intro e he s hs
          have hs' := List.mem_reverse.mp hs
          rcases List.mem_map.mp he with ⟨d, hd, hde⟩
          have := hbelow s (hmemch s hs') d hd
          rw [← hde]
          exact this)
        (by
          intro e he s hs
          have hs' := List.mem_reverse.mp hs
          have := hnum s (hmemch s hs')
          have := hbc e he
          omega)
        (by
          intro e he s hs
          have hs' := List.mem_reverse.mp hs
          rcases List.mem_map.mp he with ⟨d, hd, hde⟩
          have := hbelow s (hmemch s hs') d hd
          rw [← hde]
          exact this)
        (by
          rw [List.pairwise_reverse]
          exact hdescch)
        (by
          intro s hs
          have hs' := List.mem_reverse.mp hs
          have := hnum s (hmemch s hs')
          omega) with ⟨hn1, lat', hres⟩
    have hloopstep : headersLoop db sp cur ((ch :: rest).map (List.map Except.ok)) =
        headersLoop (writeHeaders db ch).1 sp
          (max cur ((writeHeaders db ch).2.getD 0)) (rest.map (List.map Except.ok)) := by
      simp only [List.map_cons, headersLoop, collect_map_ok,
        validate_of_chain' ch hlinkch]
    rw [hloopstep]
    have hwh : writeHeaders db ch =
        (⟨base.canonical ++ cEntries ch.reverse ++ cEntries doneAsc, hn1,
          base.headers ++ hEntries ch.reverse ++ hEntries doneAsc,
          db.headerTD⟩, lat') := by
      rw [writeHeaders, hres]
    rw [hwh]
    rcases ih (ch.reverse ++ doneAsc)
        ⟨base.canonical ++ cEntries ch.reverse ++ cEntries doneAsc, hn1,
          base.headers ++ hEntries ch.reverse ++ hEntries doneAsc,
          db.headerTD⟩
        (max cur (lat'.getD 0))
        (by
          simp only [hEntries, List.map_append, List.append_assoc])
        (by
          simp only [cEntries, List.map_append, List.append_assoc])
        htd hbh hbc
        (fun s hs => hnum s (hmemrest s hs))
        hlinkrest hdescrest
        (by
          intro s hs d hd
          rcases List.mem_append.mp hd with hd | hd
          · exact hcross d (List.mem_reverse.mp hd) s hs
          · exact hbelow s (hmemrest s hs) d hd) with ⟨hn2, cur', hres2⟩
    refine ⟨hn2, cur', ?_⟩
    rw [hres2, List.flatten_cons, List.reverse_append, List.append_assoc]

end RethSpec

namespace RethSpec

theorem alookup_append_right {κ ν : Type} [DecidableEq κ]
    {pre : List (κ × ν)} (post : List (κ × ν)) {k : κ}
    (h : ∀ e ∈ pre, e.1 ≠ k) :
    alookup k (pre ++ post) = alookup k post := by
  rw [alookup, List.find?_append, alookup]
  have hnone : pre.find? (fun e => e.1 = k) = none := by
    rw [List.find?_eq_none]
    intro e he
    simpa using h e he
  rw [hnone, Option.none_or]

theorem alookup_cons_self {κ ν : Type} [DecidableEq κ] (k : κ) (v : ν)
    (l : List (κ × ν)) : alookup k ((k, v) :: l) = some v := by
  rw [alookup, List.find?_cons_of_pos _ (by simp)]
  rfl

theorem alookup_cons_ne {κ ν : Type} [DecidableEq κ] {k k' : κ} (v : ν)
    (l : List (κ × ν)) (h : k' ≠ k) :
    alookup k ((k', v) :: l) = alookup k l := by
  rw [alookup, List.find?_cons_of_neg _ (by simpa using h), alookup]

theorem tdLoop_ok :
    ∀ (entries : List ((Nat × Nat) × Header))
      (tdTable : List ((Nat × Nat) × Nat)) (td : Nat),
      entries.Chain' (fun a b => bnhLt a.1 b.1 = true) →
      (∀ x ∈ tdTable.getLast?, ∀ y ∈ entries.head?, bnhLt x.1 y.1 = true) →
      tdLoop td tdTable entries = .ok (tdTable ++ tdAccum td entries) := by
  intro entries
  induction entries with
  | nil =>
    intro tdTable td _ _
    rw [tdAccum, List.append_nil]
    rfl
  | cons e rest ih =>
    intro tdTable td hchain hcross
    rcases e with ⟨key, hdr⟩
    have happ : appendTD tdTable key (td + hdr.difficulty) =
        some (tdTable ++ [(key, td + hdr.difficulty)]) := by
      rw [appendTD]
      rcases hlast : tdTable.getLast? with _ | last
      · rfl
      · simp only
        rw [if_pos (hcross last (by rw [hlast]; exact rfl) (key, hdr) rfl)]
    simp only [tdLoop, happ]
    rw [ih (tdTable ++ [(key, td + hdr.difficulty)]) (td + hdr.difficulty)
      hchain.tail ?_, tdAccum, List.append_assoc, List.singleton_append]
    intro x hx y hy
    rw [List.getLast?_concat] at hx
    cases hx
    exact (List.chain'_cons'.mp hchain).1 y hy

theorem walkFrom_of_split (start : Nat × Nat)
    (pre post : List ((Nat × Nat) × Header))
    (hpre : ∀ e ∈ pre, bnhLt e.1 start = true)
    (hpost : ∀ e ∈ post, bnhLt e.1 start = false) :
    walkFrom start (pre ++ post) = post := by
  rw [walkFrom, List.filter_append]
  have h1 : pre.filter (fun e => !(bnhLt e.1 start)) = [] := by
    rw [List.filter_eq_nil_iff]
    intro e he
    simp [hpre e he]
  have h2 : post.filter (fun e => !(bnhLt e.1 start)) = post := by
    rw [List.filter_eq_self]
    intro e he
    simp [hpost e he]
  rw [h1, h2, List.nil_append]

theorem asc_rel (Hd : List ((Nat × Nat) × Header)) :
    ∀ (asc : List SealedHeader) (prev : SealedHeader) (tdp : Nat)
      (pre : List ((Nat × Nat) × Nat)),
      List.Chain (fun a b => b.header.parent_hash = a.hash ∧
        b.header.number = a.header.number + 1) prev asc →
      alookup (prev.header.number, prev.hash)
        (pre ++ tdAccum tdp (hEntries asc)) = some tdp →
      (∀ s ∈ asc, ∀ e ∈ pre, e.1.1 ≠ s.header.number) →
      asc.Pairwise (fun a b => a.header.number < b.header.number) →
      (∀ s ∈ asc, alookup (s.header.number, s.hash) Hd = some s.header) →
      ∀ s ∈ asc, ∃ hdr td' tdpar,
        alookup (s.header.number, s.hash) Hd = some hdr ∧
        alookup (s.header.number - 1, hdr.parent_hash)
          (pre ++ tdAccum tdp (hEntries asc)) = some tdpar ∧
        alookup (s.header.number, s.hash)
          (pre ++ tdAccum tdp (hEntries asc)) = some td' ∧
        td' = tdpar + hdr.difficulty := by
  intro asc
  induction asc with
  | nil =>
    intro prev tdp pre _ _ _ _ _ s hs
    simp at hs
  | cons a0 rest ih =>
    intro prev tdp pre hchain hprevlook hfresh hasc hHd
    rcases hchain with _ | ⟨⟨hpar0, hnum0⟩, hchain'⟩
    rcases List.pairwise_cons.mp hasc with ⟨ha0, hasc'⟩
    have htableq : pre ++ tdAccum tdp (hEntries (a0 :: rest)) =
        (pre ++ [((a0.header.number, a0.hash), tdp + a0.header.difficulty)]) ++
          tdAccum (tdp + a0.header.difficulty) (hEntries rest) := by
      simp only [hEntries, List.map_cons, tdAccum, List.append_assoc,
        List.singleton_append]
    have ha0look : alookup (a0.header.number, a0.hash)
        (pre ++ tdAccum tdp (hEntries (a0 :: rest))) =
        some (tdp + a0.header.difficulty) := by
      rw [alookup_append_right (tdAccum tdp (hEntries (a0 :: rest)))
        (by
          intro e he hcon
          exact hfresh a0 (List.mem_cons_self _ _) e he (by rw [hcon]))]
      simp only [hEntries, List.map_cons, tdAccum]
      exact alookup_cons_self _ _ _
    intro s hs
    rcases List.mem_cons.mp hs with rfl | hs'
    · refine ⟨s.header, tdp + s.header.difficulty, tdp,
        hHd s (List.mem_cons_self _ _), ?_, ha0look, rfl⟩
      rw [hpar0, hnum0, Nat.add_sub_cancel]
      exact hprevlook
    · have hres := ih a0 (tdp + a0.header.difficulty)
        (pre ++ [((a0.header.number, a0.hash), tdp + a0.header.difficulty)])
        hchain'
        (by rw [← htableq]; exact ha0look)
        (by
          intro t ht e he
          rcases List.mem_append.mp he with he | he
          · exact hfresh t (List.mem_cons_of_mem _ ht) e he
          · rcases List.mem_singleton.mp he with rfl
            have := ha0 t ht
            simp only
            omega)
        hasc'
        (fun t ht => hHd t (List.mem_cons_of_mem _ ht))
        s hs'
      rcases hres with ⟨hdr, td', tdpar, h1, h2, h3, h4⟩
      refine ⟨hdr, td', tdpar, h1, ?_, ?_, h4⟩
      · rw [htableq]
        exact h2
      · rw [htableq]
        exact h3

end RethSpec

namespace RethSpec

theorem ensureParent_iff (a b : SealedHeader) :
    ensureParent a b = true ↔
      a.header.parent_hash = b.hash ∧
        a.header.number = b.header.number + 1 := by
  simp [ensureParent]

theorem bnhLt_irrefl (a : Nat × Nat) : bnhLt a a = false := by
  simp [bnhLt]

theorem alookup_append_left {κ ν : Type} [DecidableEq κ]
    {pre : List (κ × ν)} (post : List (κ × ν)) {k : κ} {v : ν}
    (h : alookup k pre = some v) : alookup k (pre ++ post) = some v := by
  rw [alookup, List.find?_append]
  rw [alookup] at h
  rcases hf : pre.find? (fun e => e.1 = k) with _ | e
  · rw [hf] at h
    exact absurd h (by simp)
  · rw [hf] at h
    rw [hf]
    simpa using h

theorem lookup_hEntries :
    ∀ (asc : List SealedHeader),
      asc.Pairwise (fun a b => a.header.number < b.header.number) →
      ∀ s ∈ asc, alookup (s.header.number, s.hash) (hEntries asc) =
        some s.header := by
  intro asc
  induction asc with
  | nil =>
    intro _ s hs
    simp at hs
  | cons a t ih =>
    intro hp s hs
    rcases List.pairwise_cons.mp hp with ⟨ha, ht⟩
    rcases List.mem_cons.mp hs with rfl | hs'
    · show alookup (s.header.number, s.hash)
        (((s.header.number, s.hash), s.header) :: hEntries t) = some s.header
      exact alookup_cons_self _ _ _
    · have hne : (a.header.number, a.hash) ≠ (s.header.number, s.hash) := by
        intro hcon
        have := ha s hs'
        rw [Prod.mk.injEq] at hcon
        omega
      show alookup (s.header.number, s.hash)
        (((a.header.number, a.hash), a.header) :: hEntries t) = some s.header
      rw [alookup_cons_ne _ _ hne]
      exact ih ht s hs'

set_option maxHeartbeats 1000000 in
/-- C4.  A Headers-stage execute over a validly parent-linked descending
chain above the head at the stage progress succeeds, and in the resulting
database every newly inserted canonical header `(n, h)` with
`n ≥ head.number + 1` satisfies
`HeaderTD((n, h)) = HeaderTD((n-1, parent_of(h))) + difficulty(h)`,
taking `HeaderTD` at the head as given. -/
theorem headers_td_invariant
    (c : Nat) (db0 : HeadersDB) (fcs : List ForkchoiceState)
    (p H td0 : Nat) (HH : Header) (st : ForkchoiceState)
    (chain : List SealedHeader) (input : ExecInput)
    (hin : input.stage_progress.getD 0 = p)
    (hch : alookup p db0.canonical = some H)
    (hhd : alookup (p, H) db0.headers = some HH)
    (hHH : HH.number = p)
    (htd : alookup (p, H) db0.headerTD = some td0)
    (hfc : nextForkChoiceState H fcs = some st)
    (hbh : ∀ e ∈ db0.headers, e.1.1 ≤ p)
    (hbc : ∀ e ∈ db0.canonical, e.1 ≤ p)
    (hbtd : ∀ e ∈ db0.headerTD, e.1.1 ≤ p)
    (hne : chain ≠ [])
    (hlink : (chain ++ [(⟨HH, H⟩ : SealedHeader)]).Chain'
      (fun a b => ensureParent a b = true)) :
    ∃ db' hn out,
      HeaderStage.execute c db0 fcs (chain.map Except.ok) input =
        some (db', .ok out) ∧
      db'.canonical = db0.canonical ++ cEntries chain.reverse ∧
      db'.headers = db0.headers ++ hEntries chain.reverse ∧
      db'.headerNumbers = hn ∧
      ∀ nn hh, (nn, hh) ∈ db'.canonical → p + 1 ≤ nn →
        ∃ hdr td' tdpar,
          alookup (nn, hh) db'.headers = some hdr ∧
          alookup (nn - 1, hdr.parent_hash) db'.headerTD = some tdpar ∧
          alookup (nn, hh) db'.headerTD = some td' ∧
          td' = tdpar + hdr.difficulty := by
  -- facts about the chain
  have hdescAll : (chain ++ [(⟨HH, H⟩ : SealedHeader)]).Pairwise
      (fun a b => b.header.number < a.header.number) := by
    haveI : IsTrans SealedHeader
        (fun a b => b.header.number < a.header.number) :=
      ⟨fun a b c h1 h2 => Nat.lt_trans h2 h1⟩
    rw [← List.chain'_iff_pairwise]
    refine hlink.imp ?_
    intro a b hab
    rcases (ensureParent_iff a b).mp hab with ⟨-, hnum⟩
    omega
  rcases List.pairwise_append.mp hdescAll with ⟨hdescchain, -, hcrosshead⟩
  have hnum : ∀ s ∈ chain, p + 1 ≤ s.header.number := by
    intro s hs
    have := hcrosshead s hs ⟨HH, H⟩ (List.mem_singleton_self _)
    simp only [hHH] at this
    omega
  rcases List.chain'_append.mp hlink with ⟨hlinkchain, -, -⟩
  have hascpair : chain.reverse.Pairwise
      (fun a b => a.header.number < b.header.number) :=
    List.pairwise_reverse.mpr hdescchain
  have hchainrev : List.Chain' (fun a b => ensureParent b a = true)
      ((⟨HH, H⟩ : SealedHeader) :: chain.reverse) := by
    have h1 : List.Chain' (fun a b => ensureParent a b = true)
        (((⟨HH, H⟩ : SealedHeader) :: chain.reverse).reverse) := by
      rw [List.reverse_cons, List.reverse_reverse]
      exact hlink
    have h2 := List.chain'_reverse.mp h1
    simpa [flip] using h2
  have hchainlinkrev : List.Chain
      (fun a b => b.header.parent_hash = a.hash ∧
        b.header.number = a.header.number + 1)
      (⟨HH, H⟩ : SealedHeader) chain.reverse := by
    have hc : List.Chain (fun a b => ensureParent b a = true)
        (⟨HH, H⟩ : SealedHeader) chain.reverse := hchainrev
    exact hc.imp (fun a b hab => (ensureParent_iff b a).mp hab)
  -- the ascending chain is nonempty, starting at number p + 1
  rcases hasc0 : chain.reverse with _ | ⟨a0, ascT⟩
  · exact absurd (by simpa using congrArg List.reverse hasc0) hne
  rw [← hasc0]
  have ha0 : a0.header.parent_hash = H ∧ a0.header.number = p + 1 := by
    rw [hasc0] at hchainlinkrev
    rcases hchainlinkrev with _ | ⟨⟨h1, h2⟩, -⟩
    exact ⟨h1, by rw [h2, hHH]⟩
  -- step 1: update_head succeeds
  have hup : updateHead db0 p = .ok () := by
    simp only [updateHead, hch, htd]
  -- step 2: head and tip via the forkchoice branch
  have hnext : nextAfter p db0.canonical = none := by
    rw [nextAfter, List.find?_eq_none]
    intro e he
    have := hbc e he
    simp
    omega
  have hht : getHeadAndTip db0 fcs p =
      some (.ok (⟨HH, H⟩, st.head_block_hash)) := by
    simp only [getHeadAndTip, hch, hhd, hnext, hfc, Option.map_some']
  -- step 3: the chunked download loop writes the chain
  have hflat : (chunks c chain).flatten = chain := chunks_flatten c chain
  rcases headersLoop_effect p p db0 (chunks c chain) [] db0 p
      (by simp [hEntries]) (by simp [cEntries]) rfl hbh hbc
      (by rw [hflat]; exact hnum)
      (by rw [hflat]; exact hlinkchain)
      (by rw [hflat]; exact hdescchain)
      (by intro s _ d hd; simp at hd) with ⟨hn, cur', hloop⟩
  rw [hflat, List.append_nil] at hloop
  have hchunkmap : chunks c (chain.map
      (Except.ok : SealedHeader → Except DownloadError SealedHeader)) =
      (chunks c chain).map (List.map
        (Except.ok : SealedHeader → Except DownloadError SealedHeader)) :=
    chunks_map c _ chain
  -- step 4: write_td over the newly inserted headers
  have htd1 : alookup ((⟨HH, H⟩ : SealedHeader).num_hash)
      db0.headerTD = some td0 := by
    show alookup (HH.number, H) db0.headerTD = some td0
    rw [hHH]
    exact htd
  have hcanlook : alookup (HH.number + 1)
      (db0.canonical ++ cEntries chain.reverse) = some a0.hash := by
    rw [hHH, alookup_append_right _ (by
      intro e he hcon
      have := hbc e he
      omega)]
    rw [hasc0]
    show alookup (p + 1) ((a0.header.number, a0.hash) :: cEntries ascT) =
      some a0.hash
    rw [ha0.2]
    exact alookup_cons_self _ _ _
  have hwalk : walkFrom (HH.number + 1, a0.hash)
      (db0.headers ++ hEntries chain.reverse) = hEntries chain.reverse := by
    refine walkFrom_of_split _ _ _ ?_ ?_
    · intro e he
      refine bnhLt_of_num_lt ?_
      have := hbh e he
      simp only [hHH]
      omega
    · intro e he
      rcases List.mem_map.mp he with ⟨s, hs, hse⟩
      rw [hasc0] at hs
      rcases List.mem_cons.mp hs with rfl | hs'
      · rw [← hse]
        show bnhLt (s.header.number, s.hash) (HH.number + 1, s.hash) = false
        rw [ha0.2, hHH]
        exact bnhLt_irrefl _
      · rw [← hse]
        refine bnhLt_false_of_num_lt ?_
        rw [hasc0] at hascpair
        have := (List.pairwise_cons.mp hascpair).1 s hs'
        show HH.number + 1 < s.header.number
        rw [hHH]
        have := ha0.2
        omega
  have htdchain : (hEntries chain.reverse).Chain'
      (fun a b => bnhLt a.1 b.1 = true) := by
    refine List.Pairwise.chain' ?_
    rw [hEntries, List.pairwise_map]
    refine hascpair.imp ?_
    intro a b hab
    exact bnhLt_of_num_lt hab
  have htdloop : tdLoop td0 db0.headerTD (hEntries chain.reverse) =
      .ok (db0.headerTD ++ tdAccum td0 (hEntries chain.reverse)) := by
    refine tdLoop_ok _ _ _ htdchain ?_
    intro x hx y hy
    refine bnhLt_of_num_lt ?_
    have hxm := hbtd x (List.mem_of_mem_getLast? hx)
    have hym : y ∈ hEntries chain.reverse := List.mem_of_mem_head? hy
    rcases List.mem_map.mp hym with ⟨s, hs, hse⟩
    have := hnum s (List.mem_reverse.mp hs)
    rw [← hse]
    show x.1.1 < s.header.number
    omega
  have hwtd : writeTd
      ⟨db0.canonical ++ cEntries chain.reverse, hn,
        db0.headers ++ hEntries chain.reverse, db0.headerTD⟩
      ⟨HH, H⟩ =
      .ok ⟨db0.canonical ++ cEntries chain.reverse, hn,
        db0.headers ++ hEntries chain.reverse,
        db0.headerTD ++ tdAccum td0 (hEntries chain.reverse)⟩ := by
    simp only [writeTd, htd1, hcanlook, hwalk, htdloop]
  -- assemble the execution
  have hexec : HeaderStage.execute c db0 fcs (chain.map Except.ok) input =
      some (⟨db0.canonical ++ cEntries chain.reverse, hn,
        db0.headers ++ hEntries chain.reverse,
        db0.headerTD ++ tdAccum td0 (hEntries chain.reverse)⟩,
        .ok ⟨max cur'
          ((((db0.canonical ++ cEntries chain.reverse).getLast?).map
            (fun e => e.1)).getD 0), true, true⟩) := by
    simp only [HeaderStage.execute, hin, hup, hht, hchunkmap, hloop, hwtd]
  refine ⟨_, hn, _, hexec, rfl, rfl, rfl, ?_⟩
  -- the total-difficulty relation for every newly inserted canonical header
  · intro nn hh hmem hge
    simp only at hmem
    rcases List.mem_append.mp hmem with hmem | hmem
    · have := hbc _ hmem
      omega
    · rcases List.mem_map.mp hmem with ⟨s, hs, hse⟩
      have hHd : ∀ t ∈ chain.reverse,
          alookup (t.header.number, t.hash)
            (db0.headers ++ hEntries chain.reverse) = some t.header := by
        intro t ht
        rw [alookup_append_right _ (by
          intro e he hcon
          have h1 := hbh e he
          have h2 := hnum t (List.mem_reverse.mp ht)
          rw [hcon] at h1
          simp only at h1
          omega)]
        exact lookup_hEntries chain.reverse hascpair t ht
      have hprevlook : alookup
          ((⟨HH, H⟩ : SealedHeader).header.number, (⟨HH, H⟩ : SealedHeader).hash)
          (db0.headerTD ++ tdAccum td0 (hEntries chain.reverse)) =
          some td0 := by
        show alookup (HH.number, H) _ = some td0
        rw [hHH]
        exact alookup_append_left _ htd
      have hrel := asc_rel (db0.headers ++ hEntries chain.reverse)
        chain.reverse ⟨HH, H⟩ td0 db0.headerTD hchainlinkrev hprevlook
        (by
          intro t ht e he
          have h1 := hbtd e he
          have h2 := hnum t (List.mem_reverse.mp ht)
          omega)
        hascpair hHd s hs
      rcases hrel with ⟨hdr, td', tdpar, h1, h2, h3, h4⟩
      injection hse with hse1 hse2
      refine ⟨hdr, td', tdpar, ?_, ?_, ?_, h4⟩
      · rw [← hse1, ← hse2]
        exact h1
      · rw [← hse1]
        exact h2
      · rw [← hse1, ← hse2]
        exact h3

end RethSpec

namespace RethSpec

/-- Witness for C4: head at block 0 (hash 100, difficulty 5, total
difficulty 5), a two-header descending chain 2 → 1 above it, forkchoice
announcing the tip hash 102. -/
theorem headers_td_invariant_witness :
    ((ExecInput.mk none (some 0)).stage_progress.getD 0 = 0 ∧
      alookup 0 (HeadersDB.mk [(0, 100)] [(100, 0)]
        [((0, 100), Header.mk 0 0 5)] [((0, 100), 5)]).canonical = some 100 ∧
      alookup (0, 100) (HeadersDB.mk [(0, 100)] [(100, 0)]
        [((0, 100), Header.mk 0 0 5)] [((0, 100), 5)]).headers =
        some (Header.mk 0 0 5) ∧
      (Header.mk 0 0 5).number = 0 ∧
      alookup (0, 100) (HeadersDB.mk [(0, 100)] [(100, 0)]
        [((0, 100), Header.mk 0 0 5)] [((0, 100), 5)]).headerTD = some 5 ∧
      nextForkChoiceState 100 [ForkchoiceState.mk 102 0 0] =
        some (ForkchoiceState.mk 102 0 0) ∧
      ([SealedHeader.mk (Header.mk 101 2 9) 102,
        SealedHeader.mk (Header.mk 100 1 7) 101] :
          List SealedHeader) ≠ [] ∧
      ([SealedHeader.mk (Header.mk 101 2 9) 102,
        SealedHeader.mk (Header.mk 100 1 7) 101] ++
          [(⟨Header.mk 0 0 5, 100⟩ : SealedHeader)]).Chain'
        (fun a b => ensureParent a b = true)) ∧
      (∃ db' hn out,
        HeaderStage.execute 5
            (HeadersDB.mk [(0, 100)] [(100, 0)]
              [((0, 100), Header.mk 0 0 5)] [((0, 100), 5)])
            [ForkchoiceState.mk 102 0 0]
            (([SealedHeader.mk (Header.mk 101 2 9) 102,
              SealedHeader.mk (Header.mk 100 1 7) 101]).map Except.ok)
            (ExecInput.mk none (some 0)) =
          some (db', .ok out) ∧
        db'.canonical = (HeadersDB.mk [(0, 100)] [(100, 0)]
            [((0, 100), Header.mk 0 0 5)] [((0, 100), 5)]).canonical ++
          cEntries ([SealedHeader.mk (Header.mk 101 2 9) 102,
            SealedHeader.mk (Header.mk 100 1 7) 101] : List SealedHeader).reverse ∧
        db'.headers = (HeadersDB.mk [(0, 100)] [(100, 0)]
            [((0, 100), Header.mk 0 0 5)] [((0, 100), 5)]).headers ++
          hEntries ([SealedHeader.mk (Header.mk 101 2 9) 102,
            SealedHeader.mk (Header.mk 100 1 7) 101] : List SealedHeader).reverse ∧
        db'.headerNumbers = hn ∧
        ∀ nn hh, (nn, hh) ∈ db'.canonical → 0 + 1 ≤ nn →
          ∃ hdr td' tdpar,
            alookup (nn, hh) db'.headers = some hdr ∧
            alookup (nn - 1, hdr.parent_hash) db'.headerTD = some tdpar ∧
            alookup (nn, hh) db'.headerTD = some td' ∧
            td' = tdpar + hdr.difficulty) :=
  ⟨⟨rfl, by decide, by decide, rfl, by decide, by decide, by decide,
    List.chain'_cons.mpr ⟨by decide, List.chain'_cons.mpr
      ⟨by decide, List.chain'_singleton _⟩⟩⟩,
   headers_td_invariant 5
     (HeadersDB.mk [(0, 100)] [(100, 0)]
       [((0, 100), Header.mk 0 0 5)] [((0, 100), 5)])
     [ForkchoiceState.mk 102 0 0] 0 100 5 (Header.mk 0 0 5)
     (ForkchoiceState.mk 102 0 0)
     [SealedHeader.mk (Header.mk 101 2 9) 102,
      SealedHeader.mk (Header.mk 100 1 7) 101]
     (ExecInput.mk none (some 0)) rfl (by decide) (by decide) rfl (by decide)
     (by decide) (by decide) (by decide) (by decide) (by decide)
     (List.chain'_cons.mpr ⟨by decide, List.chain'_cons.mpr
       ⟨by decide, List.chain'_singleton _⟩⟩)⟩

end RethSpec
